import Mathlib

/-!
wordCompletion: the priority queue `PQ` and the trie `Trie`.

A shallow embedding of `wordCompletion.h` (classes `PQ` and `Trie`) together with
theorems about it.

Modelling conventions.

* `vector<pair<int,int>> pq` is a `List (Int × Int)` of `(word_id, freq)` pairs.
* `int` values (ids, counts, `k`) are `Int`.  The two `int` increments of the
  source, `pq[i].second += 1` and `id_counter++`, go through `wrapInt`: inside
  the `int` range the result is exact, at `INT_MAX` it is `INT_MIN`, the two's
  complement wrap of the compiled program (the C++ standard leaves signed
  overflow undefined).  Heap indices are `Nat` (they stay below the vector
  size, far below `2^31`, so the `uint`/`int` conversions of the source
  preserve their value).
* The recursive helpers `fix_up` and `fix_down` carry a fuel argument; the fuel
  supplied by the wrappers (`i + 1`, respectively `size + 1`) is enough: more
  fuel gives the same result (`fix_upAux_fuel`, `fix_downAux_fuel`).
* A call ends in one of three ways, see `Outcome`.
* A `std::string` is the list of its characters; `Trie*` is `Option Trie`;
  a `std::map<string, int>` is the list of its pairs.
* The functions named `...Checked` repeat the source with every vector access
  tested against `size()`; they are shown to agree with the plain ones.
-/

namespace WordCompletion

/-- Ways in which a member function call can end: normally, by a thrown
`std::invalid_argument` (the object keeps the state it had at the throw), or in
undefined behaviour (out-of-range vector access, null dereference). -/
inductive Outcome (σ : Type) where
  | done (s : σ)
  | thrown (what : String) (s : σ)
  | undefined
  deriving DecidableEq

/-- The state an object is left in by a call, when the call has defined
behaviour. -/
def Outcome.state? {σ : Type} : Outcome σ → Option σ
  | .done s => some s
  | .thrown _ s => some s
  | .undefined => none

/-- One heap cell, `pair<int,int>` = `(word_id, freq)`. -/
abbrev Entry := Int × Int

/-- The state of a `PQ` object: its vector `pq`. -/
abbrev PQ := List Entry

/-- The least value of the source type `int` (32 bits). -/
def INT_MIN : Int := -2147483648

/-- The greatest value of the source type `int` (32 bits). -/
def INT_MAX : Int := 2147483647

/-- The `int` left by a computation whose exact result is `x`: `x` itself when
it is in the range of `int`, its two's complement wrap otherwise. -/
def wrapInt (x : Int) : Int := (x + 2147483648) % 4294967296 - 2147483648

namespace PQ

/-- Accessor `pq[i]`. -/
def cell (pq : PQ) (i : Nat) : Entry := pq.getD i (0, 0)

/-- Accessor `pq[i].second`. -/
def second (pq : PQ) (i : Nat) : Int := (cell pq i).2

/-- Accessor `pq[i].first`. -/
def first (pq : PQ) (i : Nat) : Int := (cell pq i).1

/-- The call `swap(pq[i], pq[j])`. -/
def swap (pq : PQ) (i j : Nat) : PQ := (pq.set i (cell pq j)).set j (cell pq i)

/-- Source: `int PARENT(uint i)`. -/
def PARENT (i : Nat) : Int := if i = 0 then -1 else (((i - 1) / 2 : Nat) : Int)

/-- Source: `int LEFT(uint i)`. -/
def LEFT (i : Nat) : Nat := 2 * i + 1

/-- Source: `int RIGHT(uint i)`. -/
def RIGHT (i : Nat) : Nat := 2 * i + 2

/-- Source: `int size()`. -/
def size (pq : PQ) : Nat := pq.length

/-- Source: `bool empty()`. -/
def empty (pq : PQ) : Bool := size pq == 0

/-- Body of `fix_up(i)`, with a bound on the recursion depth. -/
def fix_upAux : Nat → PQ → Nat → PQ
  | 0, pq, _ => pq
  | fuel + 1, pq, i =>
    if PARENT i ≠ -1 ∧ second pq (PARENT i).toNat < second pq i then
      fix_upAux fuel (swap pq i (PARENT i).toNat) (PARENT i).toNat
    else pq

/-- Source: `void fix_up(uint i)`; the index strictly decreases on every
recursive call, so `i + 1` calls suffice. -/
def fix_up (pq : PQ) (i : Nat) : PQ := fix_upAux (i + 1) pq i

/-- The index `largest` computed by one activation of `fix_down(i)`. -/
def largest (pq : PQ) (i : Nat) : Nat :=
  let left := LEFT i
  let right := RIGHT i
  let largest := i
  let largest := if left < size pq ∧ second pq left > second pq i then left else largest
  let largest := if right < size pq ∧ second pq right > second pq largest then right else largest
  largest

/-- Body of `fix_down(i)`, with a bound on the recursion depth. -/
def fix_downAux : Nat → PQ → Nat → PQ
  | 0, pq, _ => pq
  | fuel + 1, pq, i =>
    if largest pq i ≠ i then
      fix_downAux fuel (swap pq i (largest pq i)) (largest pq i)
    else pq

/-- Source: `void fix_down(uint i)`; the index strictly increases on every
recursive call and stays below `size()`, so `size()` calls suffice (one call
at least is made, also on the empty vector). -/
def fix_down (pq : PQ) (i : Nat) : PQ := fix_downAux (size pq + 1) pq i

/-- Source: `void insert(int id)`. -/
def insert (pq : PQ) (id : Int) : PQ :=
  let pq := pq ++ [(id, 1)]
  fix_up pq (size pq - 1)

/-- The statement `pq[i].second += 1`, an increment of an `int`. -/
def bump (pq : PQ) (i : Nat) : PQ :=
  pq.set i ((cell pq i).1, wrapInt ((cell pq i).2 + 1))

/-- The `for` loop of `changePriority`, entered at index `i` with `n`
iterations left. -/
def changePriorityLoop (id : Int) (pq : PQ) : Nat → Nat → Outcome PQ
  | 0, _ => .thrown "ID not present in PQ." pq
  | n + 1, i =>
    if first pq i = id then
      let pq := bump pq i
      let pq := fix_up pq i
      let pq := fix_down pq i
      .done pq
    else changePriorityLoop id pq n (i + 1)

/-- Source: `void changePriority(int id)`. -/
def changePriority (pq : PQ) (id : Int) : Outcome PQ :=
  changePriorityLoop id pq (size pq) 0

/-- Source: `pair<int,int> deleteMax()`; the result is the returned pair and
the vector left behind.  On an empty vector `pq[0]` and `pop_back()` are
undefined. -/
def deleteMax (pq : PQ) : Outcome (Entry × PQ) :=
  if size pq = 0 then .undefined
  else
    let max := cell pq 0
    let pq := swap pq 0 (size pq - 1)
    let pq := pq.dropLast
    let pq := fix_down pq 0
    .done (max, pq)

/-- The `for` loop of `getKMax`, with `n` iterations left. -/
def getKMaxLoop : Nat → PQ → List Int → Outcome (List Int × PQ)
  | 0, pq, res => .done (res, pq)
  | n + 1, pq, res =>
    if empty pq then getKMaxLoop n pq (res ++ [-1])
    else
      match deleteMax pq with
      | .done (max, pq) => getKMaxLoop n pq (res ++ [max.1])
      | .thrown what s => .thrown what (res, s.2)
      | .undefined => .undefined

/-- Source: `vector<int> getKMax(int k)`; the result is the returned vector and
the vector `pq` the object holds afterwards. -/
def getKMax (pq : PQ) (k : Int) : Outcome (List Int × PQ) :=
  let temp := pq
  match getKMaxLoop k.toNat pq [] with
  | .done (res, _) => .done (res, temp)
  | .thrown what s => .thrown what s
  | .undefined => .undefined

/-- The max-heap property on counts: every non-root cell is at most its parent. -/
def IsHeap (pq : PQ) : Prop :=
  ∀ i, i < size pq → 0 < i → second pq i ≤ second pq ((i - 1) / 2)

instance (pq : PQ) : Decidable (IsHeap pq) := by
  unfold IsHeap; infer_instance

/-- State in which `fix_up(i)` is entered: the heap order can fail only between
cell `i` and its parent, and the children of `i` are in order with the parent
of `i`. -/
def UpInv (pq : PQ) (i : Nat) : Prop :=
  (∀ j, j < size pq → 0 < j → j ≠ i → second pq j ≤ second pq ((j - 1) / 2)) ∧
  (∀ j, j < size pq → 0 < j → (j - 1) / 2 = i → 0 < i →
    second pq j ≤ second pq ((i - 1) / 2))

/-- State in which `fix_down(i)` is entered: the heap order can fail only
between cell `i` and its children, and the children of `i` are in order with
the parent of `i`. -/
def DownInv (pq : PQ) (i : Nat) : Prop :=
  (∀ j, j < size pq → 0 < j → (j - 1) / 2 ≠ i → second pq j ≤ second pq ((j - 1) / 2)) ∧
  (∀ j, j < size pq → 0 < j → (j - 1) / 2 = i → 0 < i →
    second pq j ≤ second pq ((i - 1) / 2))

end PQ

/-! ## The trie -/

/-- Source: `#define CHAR_SIZE 26`. -/
def CHAR_SIZE : Nat := 26

/-- A `Trie` object: its `PQ` and the array `children[CHAR_SIZE]` of owned child
pointers, `none` standing for `nullptr`. -/
inductive Trie where
  | node (pq : PQ) (children : Fin CHAR_SIZE → Option Trie)

namespace Trie

/-- Member `pq`. -/
def pq : Trie → PQ
  | node pq _ => pq

/-- Member `children`. -/
def children : Trie → Fin CHAR_SIZE → Option Trie
  | node _ ch => ch

/-- Source: constructor `Trie()`. -/
def new : Trie := node [] (fun _ => none)

/-- Source: `int getIdChild(char c)`. -/
def getIdChild (c : Char) : Int := (c.toNat : Int) - 97

/-- The subscript of `children[i]`: a slot of the array when `0 ≤ i < CHAR_SIZE`,
no slot (an out-of-range access) otherwise. -/
def slot (i : Int) : Option (Fin CHAR_SIZE) :=
  if h : 0 ≤ i ∧ i < (CHAR_SIZE : Int) then
    some ⟨i.toNat, by unfold CHAR_SIZE at *; omega⟩
  else none

/-- The assignment `children[i] = t`. -/
def setChild (ch : Fin CHAR_SIZE → Option Trie) (i : Fin CHAR_SIZE) (t : Trie) :
    Fin CHAR_SIZE → Option Trie :=
  fun j => if j = i then some t else ch j

/-- Source: `vector<int> Trie::getKMax(int k)`. -/
def getKMax : Trie → Int → Outcome (List Int × Trie)
  | node pq ch, k =>
    match PQ.getKMax pq k with
    | .done (res, pq) => .done (res, node pq ch)
    | .thrown what s => .thrown what (s.1, node s.2 ch)
    | .undefined => .undefined

/-- Source: `void Trie::insert(std::string key, int id)`, as a recursion on the
rest of the key: the tracker of `curr` receives `id`, then the walk steps into
the child of the next character, created when null. -/
def insert : Trie → List Char → Int → Outcome Trie
  | node pq ch, [], id => .done (node (PQ.insert pq id) ch)
  | node pq ch, c :: cs, id =>
    let pq := PQ.insert pq id
    match slot (getIdChild c) with
    | none => .undefined
    | some i =>
      let child := match ch i with
        | none => Trie.new
        | some t => t
      match insert child cs id with
      | .done child => .done (node pq (setChild ch i child))
      | .thrown what child => .thrown what (node pq (setChild ch i child))
      | .undefined => .undefined

/-- Source: `void Trie::changePriority(std::string key, int id)`, as a recursion
on the rest of the key.  A null child is dereferenced without a test. -/
def changePriority : Trie → List Char → Int → Outcome Trie
  | node pq ch, key, id =>
    match PQ.changePriority pq id with
    | .undefined => .undefined
    | .thrown what pq => .thrown what (node pq ch)
    | .done pq =>
      match key with
      | [] => .done (node pq ch)
      | c :: cs =>
        match slot (getIdChild c) with
        | none => .undefined
        | some i =>
          match ch i with
          | none => .undefined
          | some child =>
            match changePriority child cs id with
            | .done child => .done (node pq (setChild ch i child))
            | .thrown what child => .thrown what (node pq (setChild ch i child))
            | .undefined => .undefined

/-- The `for` loop of `Trie::search`. -/
def searchLoop : Option Trie → List Char → List (Option Trie) → Outcome (List (Option Trie))
  | _, [], out => .done out
  | none, _ :: cs, out => searchLoop none cs (out ++ [none])
  | some (node _ ch), c :: cs, out =>
    match slot (getIdChild c) with
    | none => .undefined
    | some i => searchLoop (ch i) cs (out ++ [ch i])

/-- Source: `void Trie::search(std::string key, vector<Trie*> &out)`; the result
is the vector `out` after the call. -/
def search (t : Trie) (key : List Char) (out : List (Option Trie)) :
    Outcome (List (Option Trie)) :=
  let curr := some t
  searchLoop curr key (out ++ [curr])

/-- The node reached from `t` by following, character by character, the child
slots of `p`; `none` when a child on the way is null or a character has no slot. -/
def walk : Trie → List Char → Option Trie
  | t, [] => some t
  | node _ ch, c :: cs =>
    match slot (getIdChild c) with
    | none => none
    | some i =>
      match ch i with
      | none => none
      | some t => walk t cs

/-- The last entry of the search path of `key`, which is what a caller ranks
from; `none` when that entry is null. -/
def lastOfSearch (t : Trie) (key : List Char) : Outcome (Option Trie) :=
  match search t key [] with
  | .done out => .done out.getLast?.join
  | .thrown what out => .thrown what out.getLast?.join
  | .undefined => .undefined

/-- The tracker of the node reached by walking `p`, when that node exists. -/
def pqAt (t : Trie) (p : List Char) : Option PQ := (walk t p).map Trie.pq

/-- Every tracker of the trie satisfies the max-heap property. -/
def AllHeap (t : Trie) : Prop := ∀ p n, walk t p = some n → PQ.IsHeap n.pq

end Trie

/-! ## Sequences of trie calls -/

/-- A key made of the letters `a` to `z` only. -/
def Lowercase (key : List Char) : Prop := ∀ c ∈ key, 97 ≤ c.toNat ∧ c.toNat ≤ 122

instance (key : List Char) : Decidable (Lowercase key) := by
  unfold Lowercase; infer_instance

/-- One mutating call on the root of the trie. -/
inductive Op where
  | insert (key : List Char) (id : Int)
  | changePriority (key : List Char) (id : Int)
  deriving DecidableEq

/-- The key argument of a call. -/
def Op.key : Op → List Char
  | .insert key _ => key
  | .changePriority key _ => key

/-- The id argument of a call. -/
def Op.id : Op → Int
  | .insert _ id => id
  | .changePriority _ id => id

/-- One call on the trie. -/
def Trie.apply (t : Trie) : Op → Outcome Trie
  | .insert key id => Trie.insert t key id
  | .changePriority key id => Trie.changePriority t key id

/-- A sequence of calls, in order; an exception or undefined behaviour ends it. -/
def Trie.run : Trie → List Op → Outcome Trie
  | t, [] => .done t
  | t, op :: ops =>
    match Trie.apply t op with
    | .done t => Trie.run t ops
    | .thrown what t => .thrown what t
    | .undefined => .undefined

/-- A sequence of calls in which the caller catches each exception and goes
on; `none` when a call has undefined behaviour. -/
def Trie.runCatching : Trie → List Op → Option Trie
  | t, [] => some t
  | t, op :: ops =>
    match Trie.apply t op with
    | .done t => Trie.runCatching t ops
    | .thrown _ t => Trie.runCatching t ops
    | .undefined => none

/-- The engine discipline for one call after the calls `hist`: a word is
inserted when it is lowercase, was not given before and its id is fresh; it is
incremented with the id it was inserted with. -/
def okAfter (hist : List Op) : Op → Prop
  | .insert key id => Lowercase key ∧ ∀ o ∈ hist, o.key ≠ key ∧ o.id ≠ id
  | .changePriority key id => Op.insert key id ∈ hist

instance (hist : List Op) (op : Op) : Decidable (okAfter hist op) := by
  cases op <;> unfold okAfter <;> infer_instance

/-- The engine discipline for a sequence of calls. -/
def Disciplined (ops : List Op) : Prop :=
  ∀ n, n < ops.length → ∀ op ∈ ops[n]?, okAfter (ops.take n) op

instance (ops : List Op) : Decidable (Disciplined ops) := by
  unfold Disciplined; infer_instance

/-- Number of times the word `w` was used (inserted or incremented) in `ops`. -/
def uses (ops : List Op) (w : List Char) : Nat := ops.countP (fun o => o.key = w)


/-- The `(word, id)` pairs given to `Trie::insert` in `ops`, in call order. -/
def registered (ops : List Op) : List (List Char × Int) :=
  ops.filterMap (fun o =>
    match o with
    | .insert key id => some (key, id)
    | .changePriority _ _ => none)

/-- The entries `(id, u word)` of the registered words `regs` that start with `p`. -/
def entriesOf (u : List Char → Int) (regs : List (List Char × Int)) (p : List Char) :
    List Entry :=
  (regs.filter (fun r => p <+: r.1)).map (fun r => (r.2, u r.1))

/-- The count of the word `w` after the calls `ops`: the number of its uses,
as an `int`. -/
def countOf (ops : List Op) (w : List Char) : Int := wrapInt (uses ops w)

/-- The entries expected in the tracker of the node of prefix `p` after the
calls `ops`: one `(id, count)` per inserted word that starts with `p`. -/
def entries (ops : List Op) (p : List Char) : List Entry :=
  entriesOf (countOf ops) (registered ops) p

/-- The relation between the calls made so far and the trie they built. -/
structure Inv (ops : List Op) (t : Trie) : Prop where
  ids_nodup : ((registered ops).map Prod.snd).Nodup
  keys_nodup : ((registered ops).map Prod.fst).Nodup
  exists_iff : ∀ p, (Trie.pqAt t p).isSome ↔ (p = [] ∨ ∃ r ∈ registered ops, p <+: r.1)
  perm : ∀ p, ((Trie.pqAt t p).getD []).Perm (entries ops p)

/-- The calls of the concrete scenario, in one of its orders: "cat" (id 0) used
3 times, "car" (id 1) used 5 times, "dog" (id 2) used once. -/
def scenarioOps : List Op :=
  [.insert "cat".toList 0, .changePriority "cat".toList 0, .changePriority "cat".toList 0,
   .insert "car".toList 1, .changePriority "car".toList 1, .changePriority "car".toList 1,
   .changePriority "car".toList 1, .changePriority "car".toList 1,
   .insert "dog".toList 2]

/-- One word inserted and then incremented, `INT_MAX + 1` uses in all. -/
def overflowOps : List Op :=
  Op.insert "a".toList 0 :: List.replicate 2147483647 (Op.changePriority "a".toList 0)

/-- The `INT_MAX + 2` distinct words "", "a", "aa", "aaa", ... -/
def overflowWords : List (List Char) :=
  (List.range 2147483649).map (fun k => List.replicate k 'a')

/-! ## The refinement variant, checked accesses and the id registry -/

namespace PQ

/-- The loop of the variant of `changePriority` that, at the entry found,
increases the count by 1 and calls `fix_up(i)` alone (no `fix_down(i)`). -/
def changePriorityUpLoop (id : Int) (pq : PQ) : Nat → Nat → Outcome PQ
  | 0, _ => .thrown "ID not present in PQ." pq
  | n + 1, i =>
    if first pq i = id then
      let pq := bump pq i
      let pq := fix_up pq i
      .done pq
    else changePriorityUpLoop id pq n (i + 1)

/-- The variant of `changePriority` without the call of `fix_down`. -/
def changePriorityUp (pq : PQ) (id : Int) : Outcome PQ :=
  changePriorityUpLoop id pq (size pq) 0

/-- Checked read of `pq[i]`: `none` when `i` is not below `size()`. -/
def cell? (pq : PQ) (i : Nat) : Option Entry := pq[i]?

/-- Checked `swap(pq[i], pq[j])`: `none` when one index is not below `size()`. -/
def swap? (pq : PQ) (i j : Nat) : Option PQ :=
  if i < size pq ∧ j < size pq then some (swap pq i j) else none

/-- Body of `fix_up(i)` with every vector access checked; `none` is an
out-of-range access.  The right operand of `&&` is evaluated only when
`PARENT(i) != -1`. -/
def fix_upChecked : Nat → PQ → Nat → Option PQ
  | 0, pq, _ => some pq
  | fuel + 1, pq, i =>
    if PARENT i ≠ -1 then
      match cell? pq (PARENT i).toNat, cell? pq i with
      | some p, some c =>
        if p.2 < c.2 then
          match swap? pq i (PARENT i).toNat with
          | some pq => fix_upChecked fuel pq (PARENT i).toNat
          | none => none
        else some pq
      | _, _ => none
    else some pq

/-- The test `j < size() && pq[j].second > pq[l].second` with checked reads;
the reads happen only when `j < size()`. -/
def greaterChecked (pq : PQ) (j l : Nat) : Option Bool :=
  if j < size pq then
    match cell? pq j, cell? pq l with
    | some a, some b => some (decide (a.2 > b.2))
    | _, _ => none
  else some false

/-- The index `largest` of one activation of `fix_down(i)`, with checked reads. -/
def largestChecked (pq : PQ) (i : Nat) : Option Nat :=
  let left := LEFT i
  let right := RIGHT i
  let largest := i
  match greaterChecked pq left i with
  | none => none
  | some b =>
    let largest := if b then left else largest
    match greaterChecked pq right largest with
    | none => none
    | some b => some (if b then right else largest)

/-- Body of `fix_down(i)` with every vector access checked. -/
def fix_downChecked : Nat → PQ → Nat → Option PQ
  | 0, pq, _ => some pq
  | fuel + 1, pq, i =>
    match largestChecked pq i with
    | none => none
    | some largest =>
      if largest ≠ i then
        match swap? pq i largest with
        | some pq => fix_downChecked fuel pq largest
        | none => none
      else some pq

/-- Source: `insert(int id)` with every vector access checked. -/
def insertChecked (pq : PQ) (id : Int) : Outcome PQ :=
  let pq := pq ++ [(id, 1)]
  match fix_upChecked (size pq - 1 + 1) pq (size pq - 1) with
  | some pq => .done pq
  | none => .undefined

/-- Source: `deleteMax()` with every vector access checked; `pop_back()`
needs a non-empty vector. -/
def deleteMaxChecked (pq : PQ) : Outcome (Entry × PQ) :=
  match cell? pq 0 with
  | none => .undefined
  | some max =>
    match swap? pq 0 (size pq - 1) with
    | none => .undefined
    | some pq =>
      if size pq = 0 then .undefined
      else
        let pq := pq.dropLast
        match fix_downChecked (size pq + 1) pq 0 with
        | none => .undefined
        | some pq => .done (max, pq)

end PQ

/-- A `std::map<string, int>`: the list of its `(key, value)` pairs, every key
at most once. -/
abbrev StdMap := List (List Char × Int)

namespace StdMap

/-- The value stored under `key`, if any. -/
def find? : StdMap → List Char → Option Int
  | [], _ => none
  | (k, v) :: rest, key => if k = key then some v else find? rest key

/-- The call `m.count(key)`: 1 when `key` is in the map, 0 otherwise. -/
def count (m : StdMap) (key : List Char) : Nat := if (find? m key).isSome then 1 else 0

/-- The call `m.emplace(make_pair(key, v))`: the pair is added unless `key`
is in the map already. -/
def emplace (m : StdMap) (key : List Char) (v : Int) : StdMap :=
  if count m key = 0 then m ++ [(key, v)] else m

/-- The read `m[key]` of a key that is in the map. -/
def get (m : StdMap) (key : List Char) : Int := (find? m key).getD 0

end StdMap

/-- The data members of a `wordCompletion` object. -/
structure wordCompletion where
  Dict : Trie
  Words : StdMap
  id_counter : Int

/-- Source: `int wordCompletion::checkId(string key)`. -/
def wordCompletion.checkId (wc : wordCompletion) (key : List Char) : Int :=
  if StdMap.count wc.Words key ≠ 0 then StdMap.get wc.Words key else -1

/-- Source: `int wordCompletion::registerKey(string key)`; the result is the
returned id and the object afterwards (`return id_counter++`, an increment of
an `int`). -/
def wordCompletion.registerKey (wc : wordCompletion) (key : List Char) :
    Int × wordCompletion :=
  let Words := StdMap.emplace wc.Words key wc.id_counter
  (wc.id_counter, { wc with Words := Words, id_counter := wrapInt (wc.id_counter + 1) })

/-- The words `ws` registered one after the other with `registerKey`; the
result is the list of returned ids and the object afterwards. -/
def wordCompletion.registerAll : wordCompletion → List (List Char) → List Int × wordCompletion
  | wc, [] => ([], wc)
  | wc, w :: ws =>
    let r := wc.registerKey w
    let rs := registerAll r.2 ws
    (r.1 :: rs.1, rs.2)

/-- A call permitted after the calls `hist` in a sequence of inserts of
lowercase words with increments of words inserted before (any id). -/
def okLoose (hist : List Op) : Op → Prop
  | .insert key _ => Lowercase key
  | .changePriority key _ => key ∈ (registered hist).map Prod.fst

instance (hist : List Op) (op : Op) : Decidable (okLoose hist op) := by
  cases op <;> unfold okLoose <;> infer_instance

/-- A sequence of inserts of lowercase words, with increments of words
inserted before. -/
def WellUsed (ops : List Op) : Prop :=
  ∀ n, n < ops.length → ∀ op ∈ ops[n]?, okLoose (ops.take n) op

instance (ops : List Op) : Decidable (WellUsed ops) := by
  unfold WellUsed; infer_instance

/-! ## Lemmas on the priority queue -/

namespace PQ

/-! ### Cells, swaps and indices -/

theorem cell_eq_getElem (pq : PQ) (i : Nat) (h : i < pq.length) : cell pq i = pq[i] := by
  simp [cell, List.getElem?_eq_getElem h]

theorem length_swap (pq : PQ) (i j : Nat) : (swap pq i j).length = pq.length := by
  simp [swap]

theorem size_swap (pq : PQ) (i j : Nat) : size (swap pq i j) = size pq := by
  simp [size, swap]

theorem cell_swap (pq : PQ) (i j k : Nat) (hi : i < pq.length) (hj : j < pq.length) :
    cell (swap pq i j) k = if k = j then cell pq i else if k = i then cell pq j else cell pq k := by
  unfold swap cell
  simp only [List.getD_eq_getElem?_getD, List.getElem?_set, List.length_set]
  by_cases h1 : j = k
  · subst h1; simp [hj]
  · by_cases h2 : i = k
    · subst h2; simp [h1, hi, Ne.symm h1]
    · simp [h1, h2, Ne.symm h1, Ne.symm h2]

theorem second_swap (pq : PQ) (i j k : Nat) (hi : i < pq.length) (hj : j < pq.length) :
    second (swap pq i j) k =
      if k = j then second pq i else if k = i then second pq j else second pq k := by
  unfold second
  rw [cell_swap pq i j k hi hj]
  split_ifs <;> rfl

theorem set_set_perm_aux {α : Type} [DecidableEq α] (l : List α) (i j : Nat)
    (hi : i < l.length) (hj : j < l.length) : ((l.set i l[j]).set j l[i]).Perm l := by
  rw [List.perm_iff_count]
  intro a
  rw [List.count_set _ _ _ _ (by simpa using hj), List.count_set _ _ _ _ hi]
  simp only [List.getElem_set, beq_iff_eq]
  have h1 := List.count_pos_iff.mpr (List.getElem_mem (l := l) hi)
  have h2 := List.count_pos_iff.mpr (List.getElem_mem (l := l) hj)
  by_cases hij : i = j
  · subst hij
    simp only [if_true]
    by_cases ha : l[i] = a
    · subst ha; simp
    · simp [ha]
  · simp only [hij, if_false]
    by_cases ha : l[i] = a <;> by_cases hb : l[j] = a
    · simp [ha, hb]; rw [ha] at h1; omega
    · simp [ha, hb]; rw [ha] at h1; omega
    · simp [ha, hb]
    · simp [ha, hb]

theorem swap_perm (pq : PQ) (i j : Nat) (hi : i < pq.length) (hj : j < pq.length) :
    (swap pq i j).Perm pq := by
  unfold swap
  rw [cell_eq_getElem pq i hi, cell_eq_getElem pq j hj]
  exact set_set_perm_aux pq i j hi hj

theorem PARENT_ne (i : Nat) : PARENT i ≠ -1 ↔ 0 < i := by
  unfold PARENT
  split_ifs with h
  · simp [h]
  · constructor
    · intro _; omega
    · intro _; omega

theorem PARENT_toNat (i : Nat) : (PARENT i).toNat = (i - 1) / 2 := by
  unfold PARENT
  split_ifs with h
  · subst h; rfl
  · exact Int.toNat_ofNat _

/-! ### `fix_up` -/

theorem fix_upAux_succ (fuel : Nat) (pq : PQ) (i : Nat) :
    fix_upAux (fuel + 1) pq i =
      if 0 < i ∧ second pq ((i - 1) / 2) < second pq i then
        fix_upAux fuel (swap pq i ((i - 1) / 2)) ((i - 1) / 2)
      else pq := by
  simp only [fix_upAux, PARENT_ne, PARENT_toNat]

theorem length_fix_upAux (fuel : Nat) : ∀ (pq : PQ) (i : Nat),
    (fix_upAux fuel pq i).length = pq.length := by
  induction fuel with
  | zero => intro pq i; rfl
  | succ n ih =>
    intro pq i
    rw [fix_upAux_succ]
    split_ifs
    · rw [ih, length_swap]
    · rfl

theorem fix_upAux_perm (fuel : Nat) : ∀ (pq : PQ) (i : Nat), i < pq.length →
    (fix_upAux fuel pq i).Perm pq := by
  induction fuel with
  | zero => intro pq i _; exact List.Perm.refl _
  | succ n ih =>
    intro pq i hi
    rw [fix_upAux_succ]
    split_ifs with h
    · have hp : (i - 1) / 2 < pq.length := by omega
      exact (ih _ _ (by rw [length_swap]; exact hp)).trans (swap_perm pq i _ hi hp)
    · exact List.Perm.refl _

theorem fix_upAux_fuel_eq (f1 : Nat) : ∀ (f2 : Nat) (pq : PQ) (i : Nat), i < f1 → i < f2 →
    fix_upAux f1 pq i = fix_upAux f2 pq i := by
  induction f1 with
  | zero => intro f2 pq i h; omega
  | succ n ih =>
    intro f2 pq i h1 h2
    cases f2 with
    | zero => omega
    | succ m =>
      rw [fix_upAux_succ, fix_upAux_succ]
      split_ifs with h
      · exact ih m _ _ (by omega) (by omega)
      · rfl

/-- More fuel than `i + 1` does not change what `fix_up` computes. -/
theorem fix_upAux_fuel (fuel : Nat) (pq : PQ) (i : Nat) (h : i < fuel) :
    fix_upAux fuel pq i = fix_up pq i :=
  fix_upAux_fuel_eq fuel (i + 1) pq i h (by omega)

theorem fix_upAux_heap (fuel : Nat) : ∀ (pq : PQ) (i : Nat), i < fuel → i < size pq →
    UpInv pq i → IsHeap (fix_upAux fuel pq i) := by
  induction fuel with
  | zero => intro pq i h; omega
  | succ n ih =>
    intro pq i hf hi hinv
    rw [fix_upAux_succ]
    obtain ⟨h1, h2⟩ := hinv
    unfold size at hi h1 h2
    split_ifs with h
    · obtain ⟨hpos, hlt⟩ := h
      have hp : (i - 1) / 2 < pq.length := by omega
      apply ih _ _ (by omega) (by rw [size_swap]; exact hp)
      constructor
      · intro j hj hj0 hjne
        rw [size_swap] at hj
        unfold size at hj
        rw [second_swap pq _ _ _ hi hp, second_swap pq _ _ _ hi hp]
        by_cases hji : j = i
        · subst hji
          simp only [hjne, if_false, if_true]
          omega
        · simp only [hjne, hji, if_false]
          by_cases hq : (j - 1) / 2 = i
          · have := h2 j hj hj0 hq hpos
            have hne : ¬ i = (i - 1) / 2 := by omega
            simp only [hne, hq, if_false, if_true]
            exact this
          · by_cases hq2 : (j - 1) / 2 = (i - 1) / 2
            · have := h1 j hj hj0 hji
              simp only [hq2, if_true]
              rw [hq2] at this
              omega
            · simp only [hq, hq2, if_false]
              exact h1 j hj hj0 hji
      · intro j hj hj0 hjp hp0
        rw [size_swap] at hj
        unfold size at hj
        rw [second_swap pq _ _ _ hi hp, second_swap pq _ _ _ hi hp]
        have e1 : ¬ ((i - 1) / 2 - 1) / 2 = (i - 1) / 2 := by omega
        have e2 : ¬ ((i - 1) / 2 - 1) / 2 = i := by omega
        have e3 : ¬ j = (i - 1) / 2 := by omega
        simp only [e1, e2, e3, if_false]
        have hpp := h1 ((i - 1) / 2) hp hp0 (by omega)
        by_cases hji : j = i
        · simp only [hji, if_true]; exact hpp
        · simp only [hji, if_false]
          have := h1 j hj hj0 hji
          rw [hjp] at this
          omega
    · intro j hj hj0
      by_cases hji : j = i
      · subst hji
        have : ¬ second pq ((j - 1) / 2) < second pq j := fun hlt => h ⟨hj0, hlt⟩
        omega
      · exact h1 j hj hj0 hji

/-! ### `fix_down` -/

theorem largest_spec (pq : PQ) (i : Nat) :
    (largest pq i = i ∧
      (2 * i + 1 < size pq → second pq (2 * i + 1) ≤ second pq i) ∧
      (2 * i + 2 < size pq → second pq (2 * i + 2) ≤ second pq i)) ∨
    (largest pq i ≠ i ∧ largest pq i < size pq ∧
      (largest pq i = 2 * i + 1 ∨ largest pq i = 2 * i + 2) ∧
      second pq i < second pq (largest pq i) ∧
      (2 * i + 1 < size pq → second pq (2 * i + 1) ≤ second pq (largest pq i)) ∧
      (2 * i + 2 < size pq → second pq (2 * i + 2) ≤ second pq (largest pq i))) := by
  unfold largest LEFT RIGHT
  simp only [gt_iff_lt]
  by_cases h1 : 2 * i + 1 < size pq ∧ second pq i < second pq (2 * i + 1)
  · rw [if_pos h1]
    by_cases h2 : 2 * i + 2 < size pq ∧ second pq (2 * i + 1) < second pq (2 * i + 2)
    · rw [if_pos h2]
      right
      refine ⟨by omega, h2.1, Or.inr rfl, by omega, fun _ => by omega, fun _ => le_refl _⟩
    · rw [if_neg h2]
      right
      refine ⟨by omega, h1.1, Or.inl rfl, h1.2, fun _ => le_refl _, fun h => ?_⟩
      have : ¬ second pq (2 * i + 1) < second pq (2 * i + 2) := fun hh => h2 ⟨h, hh⟩
      omega
  · rw [if_neg h1]
    by_cases h2 : 2 * i + 2 < size pq ∧ second pq i < second pq (2 * i + 2)
    · rw [if_pos h2]
      right
      refine ⟨by omega, h2.1, Or.inr rfl, h2.2, fun h => ?_, fun _ => le_refl _⟩
      have : ¬ second pq i < second pq (2 * i + 1) := fun hh => h1 ⟨h, hh⟩
      omega
    · rw [if_neg h2]
      left
      refine ⟨rfl, fun h => ?_, fun h => ?_⟩
      · have : ¬ second pq i < second pq (2 * i + 1) := fun hh => h1 ⟨h, hh⟩
        omega
      · have : ¬ second pq i < second pq (2 * i + 2) := fun hh => h2 ⟨h, hh⟩
        omega

theorem largest_of_size_le (pq : PQ) (i : Nat) (h : size pq ≤ 2 * i + 1) : largest pq i = i := by
  rcases largest_spec pq i with h1 | h2
  · exact h1.1
  · omega

theorem length_fix_downAux (fuel : Nat) : ∀ (pq : PQ) (i : Nat),
    (fix_downAux fuel pq i).length = pq.length := by
  induction fuel with
  | zero => intro pq i; rfl
  | succ n ih =>
    intro pq i
    simp only [fix_downAux]
    split_ifs
    · rw [ih, length_swap]
    · rfl

theorem fix_downAux_perm (fuel : Nat) : ∀ (pq : PQ) (i : Nat),
    (fix_downAux fuel pq i).Perm pq := by
  induction fuel with
  | zero => intro pq i; exact List.Perm.refl _
  | succ n ih =>
    intro pq i
    simp only [fix_downAux]
    split_ifs with h
    · rcases largest_spec pq i with h1 | h2
      · exact absurd h1.1 h
      · have hm : largest pq i < pq.length := h2.2.1
        exact (ih _ _).trans (swap_perm pq i _ (by omega) hm)
    · exact List.Perm.refl _

theorem fix_downAux_fuel_eq (f1 : Nat) : ∀ (f2 : Nat) (pq : PQ) (i : Nat),
    size pq < f1 + i → size pq < f2 + i → fix_downAux f1 pq i = fix_downAux f2 pq i := by
  induction f1 with
  | zero =>
    intro f2 pq i h1 _
    cases f2 with
    | zero => rfl
    | succ m =>
      simp only [fix_downAux]
      rw [if_neg]
      rw [not_not]
      exact largest_of_size_le pq i (by omega)
  | succ n ih =>
    intro f2 pq i h1 h2
    cases f2 with
    | zero =>
      simp only [fix_downAux]
      rw [if_neg]
      rw [not_not]
      exact largest_of_size_le pq i (by omega)
    | succ m =>
      simp only [fix_downAux]
      split_ifs with h
      · rcases largest_spec pq i with h3 | h3
        · exact absurd h3.1 h
        · exact ih m _ _ (by rw [size_swap]; omega) (by rw [size_swap]; omega)
      · rfl

/-- More fuel than `size() + 1` does not change what `fix_down` computes. -/
theorem fix_downAux_fuel (fuel : Nat) (pq : PQ) (i : Nat) (h : size pq < fuel + i) :
    fix_downAux fuel pq i = fix_down pq i :=
  fix_downAux_fuel_eq fuel (size pq + 1) pq i h (by omega)

theorem fix_downAux_heap (fuel : Nat) : ∀ (pq : PQ) (i : Nat), size pq < fuel + i →
    DownInv pq i → IsHeap (fix_downAux fuel pq i) := by
  induction fuel with
  | zero =>
    intro pq i hf hinv j hj hj0
    exact hinv.1 j hj hj0 (by simp only [fix_downAux] at hj; omega)
  | succ n ih =>
    intro pq i hf hinv
    obtain ⟨h1, h2⟩ := hinv
    simp only [fix_downAux]
    rcases largest_spec pq i with hl | hl
    · rw [if_neg (by rw [not_not]; exact hl.1)]
      intro j hj hj0
      by_cases hp : (j - 1) / 2 = i
      · rw [hp]
        have hc : j = 2 * i + 1 ∨ j = 2 * i + 2 := by omega
        rcases hc with hc | hc
        · subst hc; exact hl.2.1 hj
        · subst hc; exact hl.2.2 hj
      · exact h1 j hj hj0 hp
    · obtain ⟨hne, hm, hmc, hlt, hc1, hc2⟩ := hl
      rw [if_pos hne]
      generalize largest pq i = m at hne hm hmc hlt hc1 hc2
      unfold size at hm h1 h2 hc1 hc2 hf
      have hi : i < pq.length := by omega
      have hmi : (m - 1) / 2 = i := by omega
      apply ih _ _ (by rw [size_swap]; unfold size; omega)
      constructor
      · intro j hj hj0 hjp
        rw [size_swap] at hj
        unfold size at hj
        rw [second_swap pq _ _ _ hi hm, second_swap pq _ _ _ hi hm]
        by_cases hjm : j = m
        · subst hjm
          have e1 : ¬ (j - 1) / 2 = j := by omega
          simp only [if_true, e1, if_false, hmi]
          omega
        · simp only [hjm, hjp, if_false]
          by_cases hji : j = i
          · subst hji
            have e1 : ¬ (j - 1) / 2 = j := by omega
            simp only [if_true, e1, if_false]
            exact (h2 m hm (by omega) hmi hj0).trans' (le_refl _)
          · simp only [hji, if_false]
            by_cases hq : (j - 1) / 2 = i
            · simp only [hq, if_true]
              have hc : j = 2 * i + 1 ∨ j = 2 * i + 2 := by omega
              rcases hc with hc | hc
              · subst hc; exact hc1 hj
              · subst hc; exact hc2 hj
            · simp only [hq, if_false]
              exact h1 j hj hj0 hq
      · intro j hj hj0 hjp hm0
        rw [size_swap] at hj
        unfold size at hj
        rw [second_swap pq _ _ _ hi hm, second_swap pq _ _ _ hi hm]
        have e1 : ¬ j = m := by omega
        have e2 : ¬ j = i := by omega
        have e3 : ¬ i = m := by omega
        simp only [e1, e2, e3, hmi, if_false, if_true]
        have := h1 j hj hj0 (by omega)
        rw [hjp] at this
        exact this

/-! ### Heaps -/

theorem cell_append_left (pq l : PQ) (j : Nat) (h : j < pq.length) :
    cell (pq ++ l) j = cell pq j := by
  simp [cell, List.getElem?_append_left h]

theorem cell_dropLast (pq : PQ) (j : Nat) (h : j < pq.length - 1) :
    cell pq.dropLast j = cell pq j := by
  simp only [cell, List.getD_eq_getElem?_getD, List.dropLast_eq_take]
  rw [List.getElem?_take_of_lt h]

theorem mem_iff_cell (pq : PQ) (e : Entry) : e ∈ pq ↔ ∃ j, j < pq.length ∧ cell pq j = e := by
  constructor
  · intro h
    obtain ⟨j, hj, rfl⟩ := List.getElem_of_mem h
    exact ⟨j, hj, cell_eq_getElem pq j hj⟩
  · rintro ⟨j, hj, rfl⟩
    rw [cell_eq_getElem pq j hj]
    exact List.getElem_mem hj

theorem IsHeap.root_max {pq : PQ} (h : IsHeap pq) :
    ∀ j, j < size pq → second pq j ≤ second pq 0 := by
  intro j
  induction j using Nat.strong_induction_on with
  | _ j ih =>
    intro hj
    by_cases h0 : j = 0
    · subst h0; exact le_refl _
    · have h1 := h j hj (by omega)
      have h2 := ih ((j - 1) / 2) (by omega) (by omega)
      omega

theorem IsHeap.mem_le_root {pq : PQ} (h : IsHeap pq) (e : Entry) (he : e ∈ pq) :
    e.2 ≤ (cell pq 0).2 := by
  obtain ⟨j, hj, rfl⟩ := (mem_iff_cell pq e).mp he
  exact h.root_max j hj

theorem IsHeap.downInv {pq : PQ} (h : IsHeap pq) (i : Nat) : DownInv pq i := by
  constructor
  · intro j hj hj0 _
    exact h j hj hj0
  · intro j hj hj0 hp hi
    have h1 := h j hj hj0
    rw [hp] at h1
    have h2 := h i (by omega) hi
    omega

theorem isHeap_nil : IsHeap [] := by
  intro i hi
  simp [size] at hi

theorem length_fix_up (pq : PQ) (i : Nat) : (fix_up pq i).length = pq.length :=
  length_fix_upAux _ _ _

theorem length_fix_down (pq : PQ) (i : Nat) : (fix_down pq i).length = pq.length :=
  length_fix_downAux _ _ _

theorem fix_up_perm (pq : PQ) (i : Nat) (h : i < pq.length) : (fix_up pq i).Perm pq :=
  fix_upAux_perm _ _ _ h

theorem fix_down_perm (pq : PQ) (i : Nat) : (fix_down pq i).Perm pq :=
  fix_downAux_perm _ _ _

theorem fix_up_heap (pq : PQ) (i : Nat) (hi : i < size pq) (h : UpInv pq i) :
    IsHeap (fix_up pq i) :=
  fix_upAux_heap _ _ _ (by omega) hi h

theorem fix_down_heap (pq : PQ) (i : Nat) (h : DownInv pq i) : IsHeap (fix_down pq i) :=
  fix_downAux_heap _ _ _ (by omega) h

/-! ### `insert` -/

theorem length_insert (pq : PQ) (id : Int) : (insert pq id).length = pq.length + 1 := by
  simp [insert, length_fix_up]

theorem insert_perm (pq : PQ) (id : Int) : (insert pq id).Perm ((id, 1) :: pq) := by
  unfold insert
  refine (fix_up_perm _ _ (by simp [size])).trans ?_
  exact List.perm_append_comm

theorem insert_heap (pq : PQ) (id : Int) (h : IsHeap pq) : IsHeap (insert pq id) := by
  unfold insert
  apply fix_up_heap _ _ (by simp [size])
  have hs : size (pq ++ [(id, 1)]) - 1 = pq.length := by simp [size]
  rw [hs]
  constructor
  · intro j hj hj0 hne
    have hj' : j < pq.length := by simp [size] at hj; omega
    unfold second
    rw [cell_append_left _ _ _ hj', cell_append_left _ _ _ (by omega)]
    exact h j hj' hj0
  · intro j hj _ hp _
    simp [size] at hj
    omega

/-! ### `deleteMax` -/

theorem deleteMax_spec (pq : PQ) (hne : pq ≠ []) :
    ∃ rest, deleteMax pq = .done (cell pq 0, rest) ∧ (cell pq 0 :: rest).Perm pq ∧
      rest.length + 1 = pq.length ∧
      (IsHeap pq → IsHeap rest ∧ ∀ e ∈ pq, e.2 ≤ (cell pq 0).2) := by
  have hlen : 0 < pq.length := List.length_pos.mpr hne
  refine ⟨fix_down (swap pq 0 (size pq - 1)).dropLast 0, ?_, ?_, ?_, ?_⟩
  · unfold deleteMax
    rw [if_neg (by unfold size; omega)]
  · have hl : (swap pq 0 (size pq - 1)) ≠ [] := by
      intro h
      have := length_swap pq 0 (size pq - 1)
      rw [h] at this
      simp at this
      omega
    have hlast : (swap pq 0 (size pq - 1)).getLast hl = cell pq 0 := by
      rw [List.getLast_eq_getElem, ← cell_eq_getElem, cell_swap pq _ _ _ hlen (by unfold size; omega)]
      rw [if_pos (by rw [length_swap]; rfl)]
    have h1 := List.dropLast_append_getLast hl
    rw [hlast] at h1
    have h2 : (cell pq 0 :: (swap pq 0 (size pq - 1)).dropLast).Perm pq := by
      refine List.Perm.trans ?_ (swap_perm pq 0 (size pq - 1) hlen (by unfold size; omega))
      conv_rhs => rw [← h1]
      exact @List.perm_append_comm _ [cell pq 0] _
    exact (List.Perm.cons _ (fix_down_perm _ _)).trans h2
  · rw [length_fix_down, List.length_dropLast, length_swap]
    omega
  · intro hheap
    refine ⟨?_, fun e he => hheap.mem_le_root e he⟩
    apply fix_down_heap
    constructor
    · intro j hj hj0 hp
      simp only [size, List.length_dropLast, length_swap] at hj
      unfold second
      rw [cell_dropLast _ _ (by rw [length_swap]; exact hj),
        cell_dropLast _ _ (by rw [length_swap]; omega),
        cell_swap pq _ _ _ hlen (by unfold size; omega),
        cell_swap pq _ _ _ hlen (by unfold size; omega)]
      have e1 : ¬ j = size pq - 1 := by unfold size; omega
      have e2 : ¬ j = 0 := by omega
      have e3 : ¬ (j - 1) / 2 = size pq - 1 := by unfold size; omega
      simp only [e1, e2, e3, hp, if_false]
      exact hheap j (by unfold size; omega) hj0
    · intro j _ _ _ h0
      omega

/-! ### `changePriority` -/

theorem length_bump (pq : PQ) (i : Nat) : (bump pq i).length = pq.length := by
  simp [bump]

theorem wrapInt_of_range (x : Int) (h1 : INT_MIN ≤ x) (h2 : x ≤ INT_MAX) : wrapInt x = x := by
  unfold wrapInt
  unfold INT_MIN at h1
  unfold INT_MAX at h2
  omega

theorem wrapInt_succ (x : Int) : wrapInt (wrapInt x + 1) = wrapInt (x + 1) := by
  unfold wrapInt
  omega

theorem wrapInt_incr (c : Int) (h1 : INT_MIN ≤ c) (h2 : c < INT_MAX) :
    wrapInt (c + 1) = c + 1 :=
  wrapInt_of_range _ (by omega) (by omega)

theorem cell_bump (pq : PQ) (i k : Nat) (hi : i < pq.length) :
    cell (bump pq i) k =
      if k = i then ((cell pq i).1, wrapInt ((cell pq i).2 + 1)) else cell pq k := by
  unfold bump
  by_cases h : i = k
  · subst h
    simp [cell, List.getElem?_set, hi]
  · have h' : ¬ k = i := fun e => h e.symm
    simp only [cell, List.getD_eq_getElem?_getD, List.getElem?_set_ne h, h', if_false]

theorem second_bump (pq : PQ) (i k : Nat) (hi : i < pq.length) :
    second (bump pq i) k = if k = i then wrapInt (second pq i + 1) else second pq k := by
  unfold second
  rw [cell_bump pq i k hi]
  split_ifs <;> rfl

theorem bump_perm (pq : PQ) (i : Nat) (hi : i < pq.length) :
    ∃ rest : PQ, pq.Perm (cell pq i :: rest) ∧
      (bump pq i).Perm (((cell pq i).1, wrapInt ((cell pq i).2 + 1)) :: rest) := by
  refine ⟨pq.take i ++ pq.drop (i + 1), ?_, ?_⟩
  · have h : pq = pq.take i ++ cell pq i :: pq.drop (i + 1) := by
      rw [cell_eq_getElem pq i hi, List.getElem_cons_drop, List.take_append_drop]
    conv_lhs => rw [h]
    exact List.perm_middle
  · unfold bump
    rw [List.set_eq_take_append_cons_drop, if_pos hi]
    exact List.perm_middle

theorem bump_upInv (pq : PQ) (i : Nat) (hi : i < pq.length) (h : IsHeap pq)
    (hge : second pq i ≤ wrapInt (second pq i + 1)) : UpInv (bump pq i) i := by
  constructor
  · intro j hj hj0 hne
    simp only [size, length_bump] at hj
    rw [second_bump pq i j hi, second_bump pq i _ hi, if_neg hne]
    have := h j hj hj0
    split_ifs with hp
    · rw [hp] at this; omega
    · exact this
  · intro j hj hj0 hp hi0
    simp only [size, length_bump] at hj
    have e1 : ¬ j = i := by omega
    have e2 : ¬ (i - 1) / 2 = i := by omega
    rw [second_bump pq i j hi, second_bump pq i _ hi, if_neg e1, if_neg e2]
    have h1 := h j hj hj0
    rw [hp] at h1
    have h2 := h i hi hi0
    omega

theorem bump_downInv (pq : PQ) (i : Nat) (hi : i < pq.length) (h : IsHeap pq)
    (hlt : wrapInt (second pq i + 1) < second pq i) : DownInv (bump pq i) i := by
  constructor
  · intro j hj hj0 hp
    simp only [size, length_bump] at hj
    rw [second_bump pq i j hi, second_bump pq i _ hi, if_neg hp]
    have := h j hj hj0
    by_cases hji : j = i
    · subst hji
      rw [if_pos rfl]
      omega
    · rw [if_neg hji]
      exact this
  · intro j hj hj0 hp hi0
    simp only [size, length_bump] at hj
    have e1 : ¬ j = i := by omega
    have e2 : ¬ (i - 1) / 2 = i := by omega
    rw [second_bump pq i j hi, second_bump pq i _ hi, if_neg e1, if_neg e2]
    have h1 := h j hj hj0
    rw [hp] at h1
    have h2 := h i hi hi0
    omega

theorem fix_up_bump_wrapped (pq : PQ) (i : Nat) (hi : i < pq.length) (h : IsHeap pq)
    (hlt : wrapInt (second pq i + 1) < second pq i) : fix_up (bump pq i) i = bump pq i := by
  unfold fix_up
  rw [fix_upAux_succ, if_neg]
  rintro ⟨h0, hsw⟩
  have e2 : ¬ (i - 1) / 2 = i := by omega
  rw [second_bump pq i i hi, second_bump pq i _ hi, if_pos rfl, if_neg e2] at hsw
  have := h i hi h0
  omega

theorem changePriorityLoop_thrown (id : Int) (pq : PQ) (n : Nat) : ∀ i : Nat,
    (∀ j, i ≤ j → j < i + n → first pq j ≠ id) →
    changePriorityLoop id pq n i = .thrown "ID not present in PQ." pq := by
  induction n with
  | zero => intro i _; rfl
  | succ m ih =>
    intro i h
    simp only [changePriorityLoop]
    rw [if_neg (h i (le_refl _) (by omega))]
    exact ih (i + 1) (fun j h1 h2 => h j (by omega) (by omega))

theorem changePriorityLoop_done (id : Int) (pq : PQ) (n : Nat) : ∀ i j : Nat,
    i ≤ j → j < i + n → first pq j = id → (∀ t, i ≤ t → t < j → first pq t ≠ id) →
    changePriorityLoop id pq n i = .done (fix_down (fix_up (bump pq j) j) j) := by
  induction n with
  | zero => intro i j h1 h2; omega
  | succ m ih =>
    intro i j h1 h2 hj hfirst
    simp only [changePriorityLoop]
    by_cases hij : i = j
    · subst hij
      rw [if_pos hj]
    · rw [if_neg (hfirst i (le_refl _) (by omega))]
      exact ih (i + 1) j (by omega) (by omega) hj (fun t h3 h4 => hfirst t (by omega) h4)

theorem changePriority_absent (pq : PQ) (id : Int) (h : ∀ e ∈ pq, e.1 ≠ id) :
    changePriority pq id = .thrown "ID not present in PQ." pq := by
  apply changePriorityLoop_thrown
  intro j _ hj
  simp only [size, Nat.zero_add] at hj
  exact h _ ((mem_iff_cell pq _).mpr ⟨j, hj, rfl⟩)

theorem changePriority_present (pq : PQ) (id : Int) (h : ∃ e ∈ pq, e.1 = id) :
    ∃ j, j < pq.length ∧ first pq j = id ∧ (∀ t, t < j → first pq t ≠ id) ∧
      changePriority pq id = .done (fix_down (fix_up (bump pq j) j) j) := by
  have hex : ∃ j, j < pq.length ∧ first pq j = id := by
    obtain ⟨e, he, hid⟩ := h
    obtain ⟨j, hj, rfl⟩ := (mem_iff_cell pq e).mp he
    exact ⟨j, hj, hid⟩
  classical
  refine ⟨Nat.find hex, (Nat.find_spec hex).1, (Nat.find_spec hex).2, ?_, ?_⟩
  · intro t ht hid
    exact Nat.find_min hex ht ⟨by have := (Nat.find_spec hex).1; omega, hid⟩
  · apply changePriorityLoop_done id pq (size pq) 0 _ (Nat.zero_le _)
    · have := (Nat.find_spec hex).1
      simp only [size]; omega
    · exact (Nat.find_spec hex).2
    · intro t _ ht hid
      exact Nat.find_min hex ht ⟨by have := (Nat.find_spec hex).1; omega, hid⟩

theorem bump_fix_heap (pq : PQ) (j : Nat) (hj : j < pq.length) (h : IsHeap pq) :
    IsHeap (fix_down (fix_up (bump pq j) j) j) := by
  apply fix_down_heap
  by_cases hge : second pq j ≤ wrapInt (second pq j + 1)
  · apply IsHeap.downInv
    exact fix_up_heap _ _ (by simp only [size, length_bump]; exact hj)
      (bump_upInv pq j hj h hge)
  · rw [fix_up_bump_wrapped pq j hj h (by omega)]
    exact bump_downInv pq j hj h (by omega)

theorem bump_fix_perm (pq : PQ) (j : Nat) (hj : j < pq.length) :
    (fix_down (fix_up (bump pq j) j) j).Perm (bump pq j) :=
  (fix_down_perm _ _).trans (fix_up_perm _ _ (by rw [length_bump]; exact hj))

theorem changePriority_heap (pq : PQ) (id : Int) (h : IsHeap pq) :
    ∀ after ∈ (changePriority pq id).state?, IsHeap after := by
  intro after hafter
  by_cases hex : ∃ e ∈ pq, e.1 = id
  · obtain ⟨j, hj, _, _, hdone⟩ := changePriority_present pq id hex
    rw [hdone] at hafter
    simp only [Outcome.state?, Option.mem_def, Option.some.injEq] at hafter
    subst hafter
    exact bump_fix_heap pq j hj h
  · rw [changePriority_absent pq id (fun e he hid => hex ⟨e, he, hid⟩)] at hafter
    simp only [Outcome.state?, Option.mem_def, Option.some.injEq] at hafter
    subst hafter
    exact h

theorem changePriority_unique (pq : PQ) (id c : Int)
    (h : pq.filter (fun e => e.1 = id) = [(id, c)]) :
    ∃ after rest : PQ, changePriority pq id = .done after ∧ after.length = pq.length ∧
      pq.Perm ((id, c) :: rest) ∧ after.Perm ((id, wrapInt (c + 1)) :: rest) := by
  have hmem : (id, c) ∈ pq := by
    have : (id, c) ∈ pq.filter (fun e => e.1 = id) := by rw [h]; simp
    exact (List.mem_filter.mp this).1
  obtain ⟨j, hj, hid, _, hdone⟩ := changePriority_present pq id ⟨_, hmem, rfl⟩
  have hcell : cell pq j = (id, c) := by
    have hm : cell pq j ∈ pq.filter (fun e => e.1 = id) := by
      rw [List.mem_filter]
      exact ⟨(mem_iff_cell pq _).mpr ⟨j, hj, rfl⟩, by simpa [first] using hid⟩
    rw [h] at hm
    simpa using hm
  obtain ⟨rest, hp1, hp2⟩ := bump_perm pq j hj
  rw [hcell] at hp1 hp2
  refine ⟨_, rest, hdone, ?_, hp1, (bump_fix_perm pq j hj).trans hp2⟩
  simp only [length_fix_down, length_fix_up, length_bump]

/-! ### `getKMax` -/

theorem getKMaxLoop_spec (n : Nat) : ∀ (pq : PQ) (res : List Int),
    ∃ es rest : List Entry,
      getKMaxLoop n pq res =
        .done (res ++ es.map Prod.fst ++ List.replicate (n - pq.length) (-1), rest) ∧
      es.length = min n pq.length ∧ (es ++ rest).Perm pq ∧
      (IsHeap pq → IsHeap rest ∧ (es.map Prod.snd).Sorted (· ≥ ·) ∧
        ∀ e ∈ es, ∀ r ∈ rest, r.2 ≤ e.2) := by
  induction n with
  | zero =>
    intro pq res
    exact ⟨[], pq, by simp [getKMaxLoop], by simp, by simp, fun h => ⟨h, by simp, by simp⟩⟩
  | succ n ih =>
    intro pq res
    by_cases hne : pq = []
    · subst hne
      obtain ⟨es, rest, h1, h2, h3, _⟩ := ih [] (res ++ [-1])
      have hes : es = [] := by
        apply List.eq_nil_of_length_eq_zero
        simpa using h2
      subst hes
      have hrest : rest = [] := by simpa using h3
      subst hrest
      refine ⟨[], [], ?_, by simp, by simp, fun h => ⟨h, by simp, by simp⟩⟩
      simp only [getKMaxLoop, empty, size, List.length_nil, beq_self_eq_true, if_true]
      rw [h1]
      simp [List.replicate_succ]
    · obtain ⟨rest1, hd, hperm, hlen, hheap⟩ := deleteMax_spec pq hne
      obtain ⟨es1, rest2, h1, h2, h3, h4⟩ := ih rest1 (res ++ [(cell pq 0).1])
      have hpos : 0 < pq.length := List.length_pos.mpr hne
      refine ⟨cell pq 0 :: es1, rest2, ?_, ?_, ?_, ?_⟩
      · have hemp : empty pq = false := by
          simp only [empty, size, beq_eq_false_iff_ne]
          omega
        simp only [getKMaxLoop, hemp, hd]
        rw [h1]
        have e : n - rest1.length = n + 1 - pq.length := by omega
        simp [e]
      · simp only [List.length_cons, h2]
        omega
      · exact (List.Perm.cons _ h3).trans hperm
      · intro hh
        obtain ⟨hh1, hh2⟩ := hheap hh
        obtain ⟨g1, g2, g3⟩ := h4 hh1
        have hsub : ∀ e, e ∈ es1 ++ rest2 → e ∈ pq := fun e he =>
          hperm.subset (List.mem_cons_of_mem _ (h3.subset he))
        refine ⟨g1, ?_, ?_⟩
        · simp only [List.map_cons, List.sorted_cons]
          refine ⟨?_, g2⟩
          intro b hb
          obtain ⟨e, he, rfl⟩ := List.mem_map.mp hb
          exact hh2 e (hsub e (List.mem_append_left _ he))
        · intro e he r hr
          rcases List.mem_cons.mp he with rfl | he
          · exact hh2 r (hsub r (List.mem_append_right _ hr))
          · exact g3 e he r hr

theorem getKMax_spec (pq : PQ) (k : Int) :
    ∃ es rest : List Entry,
      getKMax pq k =
        .done (es.map Prod.fst ++ List.replicate (k.toNat - pq.length) (-1), pq) ∧
      es.length = min k.toNat pq.length ∧ (es ++ rest).Perm pq ∧
      (IsHeap pq → (es.map Prod.snd).Sorted (· ≥ ·) ∧ ∀ e ∈ es, ∀ r ∈ rest, r.2 ≤ e.2) := by
  obtain ⟨es, rest, h1, h2, h3, h4⟩ := getKMaxLoop_spec k.toNat pq []
  refine ⟨es, rest, ?_, h2, h3, fun h => (h4 h).2⟩
  simp only [getKMax, h1, List.nil_append]

/-! ### Positions of a sub-multiset -/

theorem perm_cons_eraseIdx_aux {α : Type} (l : List α) (j : Nat) (hj : j < l.length) :
    l.Perm (l[j] :: l.eraseIdx j) := by
  have h : l = l.take j ++ l[j] :: l.drop (j + 1) := by
    rw [List.getElem_cons_drop, List.take_append_drop]
  conv_lhs => rw [h]
  rw [List.eraseIdx_eq_take_drop_succ]
  exact List.perm_middle

theorem exists_positions {α : Type} (d : α) : ∀ (es rest l : List α), (es ++ rest).Perm l →
    ∃ ps : List Nat, ps.Nodup ∧ (∀ p ∈ ps, p < l.length) ∧ es = ps.map (fun p => l.getD p d) := by
  intro es
  induction es with
  | nil => intro rest l _; exact ⟨[], List.nodup_nil, by simp, rfl⟩
  | cons e es ih =>
    intro rest l h
    have hmem : e ∈ l := h.subset (by simp)
    obtain ⟨j, hj, rfl⟩ := List.getElem_of_mem hmem
    have h1 : (es ++ rest).Perm (l.eraseIdx j) :=
      List.Perm.cons_inv (h.trans (perm_cons_eraseIdx_aux l j hj))
    obtain ⟨ps, hnd, hlt, hes⟩ := ih rest (l.eraseIdx j) h1
    have hlen : (l.eraseIdx j).length = l.length - 1 := List.length_eraseIdx_of_lt hj
    refine ⟨j :: ps.map (fun q => if q < j then q else q + 1), ?_, ?_, ?_⟩
    · rw [List.nodup_cons]
      constructor
      · intro hm
        obtain ⟨q, _, hq⟩ := List.mem_map.mp hm
        split_ifs at hq <;> omega
      · apply hnd.map
        intro a b hab
        simp only at hab
        split_ifs at hab <;> omega
    · intro p hp
      rcases List.mem_cons.mp hp with rfl | hp
      · exact hj
      · obtain ⟨q, hq, rfl⟩ := List.mem_map.mp hp
        have := hlt q hq
        split_ifs <;> omega
    · simp only [List.map_cons, List.map_map]
      congr 1
      · simp [List.getElem?_eq_getElem hj]
      · rw [hes]
        apply List.map_congr_left
        intro q _
        simp only [Function.comp, List.getD_eq_getElem?_getD, List.getElem?_eraseIdx]
        split_ifs <;> rfl

end PQ

namespace PQ

/-! ### `fix_down` on a heap -/

theorem largest_of_heap (pq : PQ) (i : Nat) (h : IsHeap pq) : largest pq i = i := by
  rcases largest_spec pq i with h1 | h2
  · exact h1.1
  · obtain ⟨_, hm, hmc, hlt, _, _⟩ := h2
    have := h (largest pq i) hm (by omega)
    have hp : (largest pq i - 1) / 2 = i := by omega
    rw [hp] at this
    omega

theorem fix_downAux_of_heap (fuel : Nat) (pq : PQ) (i : Nat) (h : IsHeap pq) :
    fix_downAux fuel pq i = pq := by
  cases fuel with
  | zero => rfl
  | succ n =>
    simp only [fix_downAux]
    rw [if_neg (by rw [not_not]; exact largest_of_heap pq i h)]

theorem fix_down_of_heap (pq : PQ) (i : Nat) (h : IsHeap pq) : fix_down pq i = pq :=
  fix_downAux_of_heap _ pq i h

theorem changePriorityLoop_eq_up (id : Int) (pq : PQ) (h : IsHeap pq)
    (hr : ∀ i, i < size pq → first pq i = id → INT_MIN ≤ second pq i ∧ second pq i < INT_MAX)
    (n : Nat) : ∀ i : Nat,
    i + n ≤ size pq → changePriorityLoop id pq n i = changePriorityUpLoop id pq n i := by
  induction n with
  | zero => intro i _; rfl
  | succ m ih =>
    intro i hi
    simp only [changePriorityLoop, changePriorityUpLoop]
    split_ifs with hid
    · have hlt : i < pq.length := by unfold size at hi; omega
      have hge : second pq i ≤ wrapInt (second pq i + 1) := by
        rw [wrapInt_incr _ (hr i hlt hid).1 (hr i hlt hid).2]
        omega
      rw [fix_down_of_heap _ _
        (fix_up_heap _ _ (by simp only [size, length_bump]; exact hlt)
          (bump_upInv pq i hlt h hge))]
    · exact ih (i + 1) (by omega)

/-! ### Checked accesses -/

theorem cell?_eq (pq : PQ) (i : Nat) (h : i < pq.length) : cell? pq i = some (cell pq i) := by
  simp [cell?, cell, List.getElem?_eq_getElem h]

theorem swap?_eq (pq : PQ) (i j : Nat) (hi : i < pq.length) (hj : j < pq.length) :
    swap? pq i j = some (swap pq i j) := by
  unfold swap?
  rw [if_pos ⟨hi, hj⟩]

theorem fix_upChecked_eq (fuel : Nat) : ∀ (pq : PQ) (i : Nat), i < pq.length →
    fix_upChecked fuel pq i = some (fix_upAux fuel pq i) := by
  induction fuel with
  | zero => intro pq i _; rfl
  | succ n ih =>
    intro pq i hi
    rw [fix_upAux_succ]
    simp only [fix_upChecked, PARENT_ne, PARENT_toNat]
    by_cases h0 : 0 < i
    · have hp : (i - 1) / 2 < pq.length := by omega
      rw [if_pos h0, cell?_eq pq _ hp, cell?_eq pq _ hi]
      simp only
      by_cases hlt : second pq ((i - 1) / 2) < second pq i
      · have hlt' : (cell pq ((i - 1) / 2)).2 < (cell pq i).2 := hlt
        simp only [hlt', if_true, swap?_eq pq _ _ hi hp]
        have e : (0 < i ∧ second pq ((i - 1) / 2) < second pq i) := ⟨h0, hlt⟩
        rw [if_pos e]
        exact ih _ _ (by rw [length_swap]; exact hp)
      · have hlt' : ¬ (cell pq ((i - 1) / 2)).2 < (cell pq i).2 := hlt
        simp only [hlt', if_false]
        have e : ¬ (0 < i ∧ second pq ((i - 1) / 2) < second pq i) := fun hh => hlt hh.2
        rw [if_neg e]
    · have e : ¬ (0 < i ∧ second pq ((i - 1) / 2) < second pq i) := fun hh => h0 hh.1
      rw [if_neg h0, if_neg e]

theorem greaterChecked_eq (pq : PQ) (j l : Nat) (hl : l ≤ j) :
    greaterChecked pq j l = some (decide (j < size pq ∧ second pq j > second pq l)) := by
  unfold greaterChecked
  by_cases hj : j < size pq
  · have hj' : j < pq.length := hj
    rw [if_pos hj, cell?_eq pq j hj', cell?_eq pq l (by omega)]
    simp only [hj, true_and]
    rfl
  · rw [if_neg hj]
    simp [hj]

theorem largestChecked_eq (pq : PQ) (i : Nat) : largestChecked pq i = some (largest pq i) := by
  unfold largestChecked largest LEFT RIGHT
  simp only
  rw [greaterChecked_eq pq (2 * i + 1) i (by omega)]
  simp only
  by_cases h1 : 2 * i + 1 < size pq ∧ second pq (2 * i + 1) > second pq i
  · simp only [h1, and_self, decide_True, if_true]
    rw [greaterChecked_eq pq (2 * i + 2) (2 * i + 1) (by omega)]
    simp only
    by_cases h2 : 2 * i + 2 < size pq ∧ second pq (2 * i + 2) > second pq (2 * i + 1)
    · simp [h2]
    · simp [h2]
  · simp only [h1, decide_False, if_false, Bool.false_eq_true]
    rw [greaterChecked_eq pq (2 * i + 2) i (by omega)]
    simp only
    by_cases h2 : 2 * i + 2 < size pq ∧ second pq (2 * i + 2) > second pq i
    · simp [h2]
    · simp [h2]

theorem fix_downChecked_eq (fuel : Nat) : ∀ (pq : PQ) (i : Nat),
    fix_downChecked fuel pq i = some (fix_downAux fuel pq i) := by
  induction fuel with
  | zero => intro pq i; rfl
  | succ n ih =>
    intro pq i
    simp only [fix_downChecked, fix_downAux, largestChecked_eq]
    by_cases h : largest pq i = i
    · rw [if_neg (by rw [not_not]; exact h), if_neg (by rw [not_not]; exact h)]
    · rw [if_pos h, if_pos h]
      rcases largest_spec pq i with h1 | h2
      · exact absurd h1.1 h
      · have hm : largest pq i < pq.length := h2.2.1
        rw [swap?_eq pq _ _ (by omega) hm]
        exact ih _ _

theorem insertChecked_eq (pq : PQ) (id : Int) : insertChecked pq id = .done (insert pq id) := by
  unfold insertChecked insert fix_up
  simp only
  rw [fix_upChecked_eq _ _ _ (by simp [size])]

theorem deleteMaxChecked_eq (pq : PQ) : deleteMaxChecked pq = deleteMax pq := by
  unfold deleteMaxChecked deleteMax
  by_cases h : size pq = 0
  · have : pq = [] := List.eq_nil_of_length_eq_zero h
    subst this
    rfl
  · have hlen : 0 < pq.length := by unfold size at h; omega
    rw [if_neg h, cell?_eq pq 0 hlen]
    simp only
    rw [swap?_eq pq _ _ hlen (by unfold size; omega)]
    simp only [size_swap, if_neg h, fix_downChecked_eq]
    rfl

end PQ

/-! ## Lemmas on the trie -/

namespace Trie

theorem slot_eq_some {i : Int} {j : Fin CHAR_SIZE} (h : slot i = some j) : i = (j.val : Int) := by
  unfold slot at h
  split_ifs at h with hi
  cases h
  simp only
  omega

theorem slot_getIdChild_inj {c d : Char} {i : Fin CHAR_SIZE}
    (hc : slot (getIdChild c) = some i) (hd : slot (getIdChild d) = some i) : c = d := by
  have h1 := slot_eq_some hc
  have h2 := slot_eq_some hd
  unfold getIdChild at h1 h2
  apply Char.ext
  apply UInt32.ext
  have : c.toNat = d.toNat := by omega
  exact this

theorem slot_of_lower {c : Char} (h : 97 ≤ c.toNat ∧ c.toNat ≤ 122) :
    ∃ i, slot (getIdChild c) = some i := by
  unfold slot getIdChild CHAR_SIZE
  rw [dif_pos (by omega)]
  exact ⟨_, rfl⟩

theorem walk_cons_none (pq : PQ) (ch : Fin CHAR_SIZE → Option Trie) (c : Char) (cs : List Char)
    (h : slot (getIdChild c) = none) : walk (node pq ch) (c :: cs) = none := by
  simp only [walk, h]

theorem walk_cons_some (pq : PQ) (ch : Fin CHAR_SIZE → Option Trie) (c : Char) (cs : List Char)
    (i : Fin CHAR_SIZE) (h : slot (getIdChild c) = some i) :
    walk (node pq ch) (c :: cs) = (ch i).bind (fun t => walk t cs) := by
  simp only [walk, h]
  cases ch i <;> rfl

theorem pqAt_nil (t : Trie) : pqAt t [] = some t.pq := by
  cases t; rfl

theorem pqAt_cons_none (pq : PQ) (ch : Fin CHAR_SIZE → Option Trie) (c : Char) (cs : List Char)
    (h : slot (getIdChild c) = none) : pqAt (node pq ch) (c :: cs) = none := by
  simp only [pqAt, walk, h, Option.map_none']

theorem pqAt_cons_some (pq : PQ) (ch : Fin CHAR_SIZE → Option Trie) (c : Char) (cs : List Char)
    (i : Fin CHAR_SIZE) (h : slot (getIdChild c) = some i) :
    pqAt (node pq ch) (c :: cs) = (ch i).bind (fun t => pqAt t cs) := by
  simp only [pqAt, walk, h]
  cases ch i <;> rfl

theorem pqAt_new (p : List Char) : pqAt Trie.new p = if p = [] then some [] else none := by
  cases p with
  | nil => rfl
  | cons c cs =>
    simp only [pqAt, Trie.new, walk, reduceCtorEq, if_false]
    cases slot (getIdChild c) <;> rfl

theorem insert_spec : ∀ (key : List Char) (t : Trie) (id : Int), Lowercase key →
    ∃ t', Trie.insert t key id = .done t' ∧
      ∀ p, pqAt t' p =
        if p <+: key then some (PQ.insert ((pqAt t p).getD []) id) else pqAt t p := by
  intro key
  induction key with
  | nil =>
    intro t id _
    cases t with
    | node pq ch =>
      refine ⟨node (PQ.insert pq id) ch, rfl, ?_⟩
      intro p
      cases p with
      | nil => simp [pqAt_nil, Trie.pq]
      | cons d ps =>
        rw [if_neg (by simp)]
        simp only [pqAt, walk]
  | cons c cs ih =>
    intro t id hlow
    cases t with
    | node pq ch =>
      obtain ⟨i, hi⟩ := slot_of_lower (hlow c (by simp))
      have hlow' : Lowercase cs := fun x hx => hlow x (List.mem_cons_of_mem _ hx)
      obtain ⟨child', hc1, hc2⟩ := ih (match ch i with | none => Trie.new | some t => t) id hlow'
      refine ⟨node (PQ.insert pq id) (setChild ch i child'), ?_, ?_⟩
      · simp only [Trie.insert, hi, hc1]
      · intro p
        cases p with
        | nil => simp [pqAt_nil, Trie.pq]
        | cons d ps =>
          cases hd : slot (getIdChild d) with
          | none =>
            have hne : ¬ d = c := by
              intro e; rw [e, hi] at hd; cases hd
            rw [pqAt_cons_none _ _ _ _ hd, pqAt_cons_none _ _ _ _ hd, if_neg]
            rw [List.cons_prefix_cons]
            exact fun h => hne h.1
          | some j =>
            rw [pqAt_cons_some _ _ _ _ j hd, pqAt_cons_some _ _ _ _ j hd]
            by_cases hji : j = i
            · subst hji
              have hdc : d = c := slot_getIdChild_inj hd hi
              subst hdc
              simp only [setChild, if_true, Option.some_bind, hc2 ps, List.cons_prefix_cons,
                true_and]
              cases hch : ch j with
              | none =>
                simp only [Option.none_bind, Option.getD_none, pqAt_new]
                by_cases hp : ps <+: cs
                · simp only [hp, if_true]
                  split_ifs <;> rfl
                · have : ¬ ps = [] := fun e => hp (e ▸ List.nil_prefix)
                  simp only [hp, this, if_false]
              | some t0 => simp only [Option.some_bind]
            · have hne : ¬ d = c := by
                intro e
                rw [e, hi] at hd
                exact hji (Option.some.inj hd).symm
              simp only [setChild, hji, if_false]
              rw [if_neg]
              rw [List.cons_prefix_cons]
              exact fun h => hne h.1

theorem changePriority_spec : ∀ (key : List Char) (t : Trie) (id : Int),
    (∀ p, p <+: key → ∃ pq, pqAt t p = some pq ∧ ∃ e ∈ pq, e.1 = id) →
    ∃ t', Trie.changePriority t key id = .done t' ∧
      (∀ p, p <+: key → ∃ pq after, pqAt t p = some pq ∧
        PQ.changePriority pq id = .done after ∧ pqAt t' p = some after) ∧
      (∀ p, ¬ p <+: key → pqAt t' p = pqAt t p) := by
  intro key
  induction key with
  | nil =>
    intro t id h
    cases t with
    | node pq ch =>
      obtain ⟨pq0, h0, hmem⟩ := h [] List.nil_prefix
      cases h0
      obtain ⟨j, _, _, _, hdone⟩ := PQ.changePriority_present pq id hmem
      refine ⟨node (PQ.fix_down (PQ.fix_up (PQ.bump pq j) j) j) ch,
        by simp only [Trie.changePriority, hdone], ?_, ?_⟩
      · intro p hp
        have : p = [] := List.prefix_nil.mp hp
        subst this
        exact ⟨pq, _, rfl, hdone, rfl⟩
      · intro p hp
        cases p with
        | nil => exact absurd List.nil_prefix hp
        | cons d ps => simp only [pqAt, walk]
  | cons c cs ih =>
    intro t id h
    cases t with
    | node pq ch =>
      obtain ⟨pq0, h0, hmem⟩ := h [] List.nil_prefix
      cases h0
      obtain ⟨j, _, _, _, hdone⟩ := PQ.changePriority_present pq id hmem
      have hc := h [c] (by rw [List.cons_prefix_cons]; exact ⟨rfl, List.nil_prefix⟩)
      obtain ⟨pqc, hpqc, _⟩ := hc
      cases hi : slot (getIdChild c) with
      | none => rw [pqAt_cons_none _ _ _ _ hi] at hpqc; cases hpqc
      | some i =>
        rw [pqAt_cons_some _ _ _ _ i hi] at hpqc
        cases hch : ch i with
        | none => rw [hch] at hpqc; cases hpqc
        | some child =>
          have hchild : ∀ p, p <+: cs → ∃ pq, pqAt child p = some pq ∧ ∃ e ∈ pq, e.1 = id := by
            intro p hp
            have := h (c :: p) (by rw [List.cons_prefix_cons]; exact ⟨rfl, hp⟩)
            rw [pqAt_cons_some _ _ _ _ i hi, hch] at this
            exact this
          obtain ⟨child', hc1, hc2, hc3⟩ := ih child id hchild
          refine ⟨node (PQ.fix_down (PQ.fix_up (PQ.bump pq j) j) j) (setChild ch i child'),
            ?_, ?_, ?_⟩
          · simp only [Trie.changePriority, hdone, hi, hch, hc1]
          · intro p hp
            cases p with
            | nil => exact ⟨pq, _, rfl, hdone, rfl⟩
            | cons d ps =>
              rw [List.cons_prefix_cons] at hp
              obtain ⟨rfl, hps⟩ := hp
              rw [pqAt_cons_some _ _ _ _ i hi, pqAt_cons_some _ _ _ _ i hi, hch]
              simp only [setChild, if_true, Option.some_bind]
              exact hc2 ps hps
          · intro p hp
            cases p with
            | nil => exact absurd List.nil_prefix hp
            | cons d ps =>
              cases hd : slot (getIdChild d) with
              | none => rw [pqAt_cons_none _ _ _ _ hd, pqAt_cons_none _ _ _ _ hd]
              | some j =>
                rw [pqAt_cons_some _ _ _ _ j hd, pqAt_cons_some _ _ _ _ j hd]
                by_cases hji : j = i
                · subst hji
                  have hdc : d = c := slot_getIdChild_inj hd hi
                  subst hdc
                  simp only [setChild, if_true, Option.some_bind, hch]
                  apply hc3
                  intro hps
                  exact hp (by rw [List.cons_prefix_cons]; exact ⟨rfl, hps⟩)
                · simp only [setChild, hji, if_false]

/-! ### The heap property in every node -/

theorem slot_surj (i : Fin CHAR_SIZE) : ∃ c, slot (getIdChild c) = some i := by
  refine ⟨Char.ofNat (97 + i.val), ?_⟩
  unfold CHAR_SIZE at i
  fin_cases i <;> decide

theorem allHeap_node (pq : PQ) (ch : Fin CHAR_SIZE → Option Trie) :
    AllHeap (node pq ch) ↔ PQ.IsHeap pq ∧ ∀ i t, ch i = some t → AllHeap t := by
  constructor
  · intro h
    refine ⟨h [] (node pq ch) rfl, ?_⟩
    intro i t hi p n hn
    obtain ⟨c, hc⟩ := slot_surj i
    apply h (c :: p) n
    simp only [walk, hc, hi, hn]
  · rintro ⟨h1, h2⟩ p n hn
    cases p with
    | nil =>
      simp only [walk, Option.some.injEq] at hn
      subst hn
      exact h1
    | cons c cs =>
      cases hc : slot (getIdChild c) with
      | none => rw [walk_cons_none _ _ _ _ hc] at hn; cases hn
      | some i =>
        rw [walk_cons_some _ _ _ _ i hc] at hn
        cases hi : ch i with
        | none => rw [hi] at hn; cases hn
        | some t =>
          rw [hi] at hn
          exact h2 i t hi cs n hn

theorem allHeap_new : AllHeap Trie.new := by
  unfold Trie.new
  rw [allHeap_node]
  exact ⟨PQ.isHeap_nil, fun i t h => by cases h⟩

theorem allHeap_setChild (pq : PQ) (ch : Fin CHAR_SIZE → Option Trie) (i : Fin CHAR_SIZE)
    (t : Trie) (hpq : PQ.IsHeap pq) (hch : ∀ j u, ch j = some u → AllHeap u) (ht : AllHeap t) :
    AllHeap (node pq (setChild ch i t)) := by
  rw [allHeap_node]
  refine ⟨hpq, ?_⟩
  intro j u hj
  unfold setChild at hj
  split_ifs at hj
  · cases hj; exact ht
  · exact hch j u hj

theorem insert_allHeap : ∀ (key : List Char) (t : Trie) (id : Int), AllHeap t →
    ∀ t' ∈ (Trie.insert t key id).state?, AllHeap t' := by
  intro key
  induction key with
  | nil =>
    intro t id h t' ht'
    cases t with
    | node pq ch =>
      rw [allHeap_node] at h
      simp only [Trie.insert, Outcome.state?, Option.mem_def, Option.some.injEq] at ht'
      subst ht'
      rw [allHeap_node]
      exact ⟨PQ.insert_heap pq id h.1, h.2⟩
  | cons c cs ih =>
    intro t id h t' ht'
    cases t with
    | node pq ch =>
      rw [allHeap_node] at h
      simp only [Trie.insert] at ht'
      cases hc : slot (getIdChild c) with
      | none => rw [hc] at ht'; cases ht'
      | some i =>
        rw [hc] at ht'
        simp only at ht'
        have hchild : AllHeap (match ch i with | none => Trie.new | some t => t) := by
          cases hi : ch i with
          | none => exact allHeap_new
          | some u => exact h.2 i u hi
        have ih' := ih _ id hchild
        cases hins : Trie.insert (match ch i with | none => Trie.new | some t => t) cs id with
        | done child =>
          rw [hins] at ht' ih'
          simp only [Outcome.state?, Option.mem_def, Option.some.injEq] at ht'
          subst ht'
          exact allHeap_setChild _ _ _ _ (PQ.insert_heap pq id h.1) h.2 (ih' child rfl)
        | thrown what child =>
          rw [hins] at ht' ih'
          simp only [Outcome.state?, Option.mem_def, Option.some.injEq] at ht'
          subst ht'
          exact allHeap_setChild _ _ _ _ (PQ.insert_heap pq id h.1) h.2 (ih' child rfl)
        | undefined =>
          rw [hins] at ht'
          cases ht'

theorem changePriority_allHeap : ∀ (key : List Char) (t : Trie) (id : Int), AllHeap t →
    ∀ t' ∈ (Trie.changePriority t key id).state?, AllHeap t' := by
  intro key
  induction key with
  | nil =>
    intro t id h t' ht'
    cases t with
    | node pq ch =>
      rw [allHeap_node] at h
      have hpq := PQ.changePriority_heap pq id h.1
      simp only [Trie.changePriority] at ht'
      cases hcp : PQ.changePriority pq id with
      | done after =>
        rw [hcp] at ht' hpq
        simp only [Outcome.state?, Option.mem_def, Option.some.injEq] at ht'
        subst ht'
        rw [allHeap_node]
        exact ⟨hpq after rfl, h.2⟩
      | thrown what after =>
        rw [hcp] at ht' hpq
        simp only [Outcome.state?, Option.mem_def, Option.some.injEq] at ht'
        subst ht'
        rw [allHeap_node]
        exact ⟨hpq after rfl, h.2⟩
      | undefined => rw [hcp] at ht'; cases ht'
  | cons c cs ih =>
    intro t id h t' ht'
    cases t with
    | node pq ch =>
      rw [allHeap_node] at h
      have hpq := PQ.changePriority_heap pq id h.1
      simp only [Trie.changePriority] at ht'
      cases hcp : PQ.changePriority pq id with
      | thrown what after =>
        rw [hcp] at ht' hpq
        simp only [Outcome.state?, Option.mem_def, Option.some.injEq] at ht'
        subst ht'
        rw [allHeap_node]
        exact ⟨hpq after rfl, h.2⟩
      | undefined => rw [hcp] at ht'; cases ht'
      | done after =>
        rw [hcp] at ht' hpq
        simp only at ht'
        cases hc : slot (getIdChild c) with
        | none => rw [hc] at ht'; cases ht'
        | some i =>
          rw [hc] at ht'
          simp only at ht'
          cases hi : ch i with
          | none => rw [hi] at ht'; cases ht'
          | some child =>
            rw [hi] at ht'
            simp only at ht'
            have ih' := ih child id (h.2 i child hi)
            cases hrec : Trie.changePriority child cs id with
            | done child' =>
              rw [hrec] at ht' ih'
              simp only [Outcome.state?, Option.mem_def, Option.some.injEq] at ht'
              subst ht'
              exact allHeap_setChild _ _ _ _ (hpq after rfl) h.2 (ih' child' rfl)
            | thrown what child' =>
              rw [hrec] at ht' ih'
              simp only [Outcome.state?, Option.mem_def, Option.some.injEq] at ht'
              subst ht'
              exact allHeap_setChild _ _ _ _ (hpq after rfl) h.2 (ih' child' rfl)
            | undefined => rw [hrec] at ht'; cases ht'

theorem apply_allHeap (t : Trie) (op : Op) (h : AllHeap t) :
    ∀ t' ∈ (Trie.apply t op).state?, AllHeap t' := by
  cases op with
  | insert key id => exact insert_allHeap key t id h
  | changePriority key id => exact changePriority_allHeap key t id h

theorem runCatching_allHeap : ∀ (ops : List Op) (t : Trie), AllHeap t →
    ∀ t' ∈ Trie.runCatching t ops, AllHeap t' := by
  intro ops
  induction ops with
  | nil =>
    intro t h t' ht'
    simp only [Trie.runCatching, Option.mem_def, Option.some.injEq] at ht'
    subst ht'
    exact h
  | cons op ops ih =>
    intro t h t' ht'
    have hap := apply_allHeap t op h
    simp only [Trie.runCatching] at ht'
    cases hop : Trie.apply t op with
    | done u =>
      rw [hop] at ht' hap
      exact ih u (hap u rfl) t' ht'
    | thrown what u =>
      rw [hop] at ht' hap
      exact ih u (hap u rfl) t' ht'
    | undefined => rw [hop] at ht'; cases ht'

theorem run_allHeap : ∀ (ops : List Op) (t : Trie), AllHeap t →
    ∀ t' ∈ (Trie.run t ops).state?, AllHeap t' := by
  intro ops
  induction ops with
  | nil =>
    intro t h t' ht'
    simp only [Trie.run, Outcome.state?, Option.mem_def, Option.some.injEq] at ht'
    subst ht'
    exact h
  | cons op ops ih =>
    intro t h t' ht'
    have hap := apply_allHeap t op h
    simp only [Trie.run] at ht'
    cases hop : Trie.apply t op with
    | done u =>
      rw [hop] at ht' hap
      exact ih u (hap u rfl) t' ht'
    | thrown what u =>
      rw [hop] at ht' hap
      simp only [Outcome.state?, Option.mem_def, Option.some.injEq] at ht'
      subst ht'
      exact hap u rfl
    | undefined => rw [hop] at ht'; cases ht'

end Trie

/-! ### `search` -/

namespace Trie

theorem searchLoop_last : ∀ (key : List Char) (curr : Option Trie) (out : List (Option Trie)),
    Lowercase key → out.getLast? = some curr →
    ∃ res, searchLoop curr key out = .done res ∧
      res.getLast? = some (curr.bind (fun t => walk t key)) := by
  intro key
  induction key with
  | nil =>
    intro curr out _ hout
    refine ⟨out, by simp only [searchLoop], ?_⟩
    rw [hout]
    cases curr with
    | none => rfl
    | some t => cases t; rfl
  | cons c cs ih =>
    intro curr out hlow hout
    have hlow' : Lowercase cs := fun x hx => hlow x (List.mem_cons_of_mem _ hx)
    cases curr with
    | none =>
      obtain ⟨res, h1, h2⟩ := ih none (out ++ [none]) hlow' (by simp)
      exact ⟨res, by simp only [searchLoop, h1], by rw [h2]; rfl⟩
    | some t =>
      cases t with
      | node pq ch =>
        obtain ⟨i, hi⟩ := slot_of_lower (hlow c (by simp))
        obtain ⟨res, h1, h2⟩ := ih (ch i) (out ++ [ch i]) hlow' (by simp)
        refine ⟨res, by simp only [searchLoop, hi, h1], ?_⟩
        rw [h2, Option.some_bind, walk_cons_some _ _ _ _ i hi]

theorem lastOfSearch_eq_walk (t : Trie) (key : List Char) (h : Lowercase key) :
    lastOfSearch t key = .done (walk t key) := by
  obtain ⟨res, h1, h2⟩ := searchLoop_last key (some t) ([] ++ [some t]) h (by simp)
  simp only [lastOfSearch, search, h1, h2, Option.some_bind, Option.join]
  rfl

end Trie

namespace Trie

/-! ### The whole search path -/

theorem walk_nil (t : Trie) : walk t [] = some t := by
  cases t; rfl

theorem walk_append : ∀ (p q : List Char) (t : Trie),
    walk t (p ++ q) = (walk t p).bind (fun u => walk u q) := by
  intro p
  induction p with
  | nil => intro q t; simp [walk_nil]
  | cons c cs ih =>
    intro q t
    cases t with
    | node pq ch =>
      cases hc : slot (getIdChild c) with
      | none =>
        rw [List.cons_append, walk_cons_none _ _ _ _ hc, walk_cons_none _ _ _ _ hc]
        rfl
      | some i =>
        rw [List.cons_append, walk_cons_some _ _ _ _ i hc, walk_cons_some _ _ _ _ i hc]
        cases ch i with
        | none => rfl
        | some u => simp only [Option.some_bind, ih]

theorem walk_none_of_take (t : Trie) (key : List Char) (j k : Nat) (hjk : j ≤ k)
    (h : walk t (key.take j) = none) : walk t (key.take k) = none := by
  have e : key.take k = key.take j ++ (key.take k).drop j := by
    conv_lhs => rw [← List.take_append_drop j (key.take k)]
    rw [List.take_take, Nat.min_eq_left hjk]
  rw [e, walk_append, h]
  rfl

theorem searchLoop_path : ∀ (key : List Char) (curr : Option Trie) (out : List (Option Trie)),
    Lowercase key →
    ∃ path, searchLoop curr key out = .done (out ++ path) ∧ path.length = key.length ∧
      ∀ j, j < key.length →
        path[j]? = some (curr.bind (fun t => walk t (key.take (j + 1)))) := by
  intro key
  induction key with
  | nil =>
    intro curr out _
    exact ⟨[], by simp only [searchLoop, List.append_nil], rfl, fun j hj => by simp at hj⟩
  | cons c cs ih =>
    intro curr out hlow
    have hlow' : Lowercase cs := fun x hx => hlow x (List.mem_cons_of_mem _ hx)
    cases curr with
    | none =>
      obtain ⟨path, h1, h2, h3⟩ := ih none (out ++ [none]) hlow'
      refine ⟨none :: path, ?_, by simp [h2], ?_⟩
      · simp only [searchLoop, h1, List.append_assoc, List.singleton_append]
      · intro j hj
        cases j with
        | zero => simp
        | succ k =>
          simp only [List.length_cons] at hj
          rw [List.getElem?_cons_succ, h3 k (by omega)]
          rfl
    | some t =>
      cases t with
      | node pq ch =>
        obtain ⟨i, hi⟩ := slot_of_lower (hlow c (by simp))
        obtain ⟨path, h1, h2, h3⟩ := ih (ch i) (out ++ [ch i]) hlow'
        refine ⟨ch i :: path, ?_, by simp [h2], ?_⟩
        · simp only [searchLoop, hi, h1, List.append_assoc, List.singleton_append]
        · intro j hj
          cases j with
          | zero =>
            simp only [List.getElem?_cons_zero, Option.some_bind, Nat.zero_add,
              List.take_succ_cons, List.take_zero, walk_cons_some _ _ _ _ i hi]
            cases ch i with
            | none => rfl
            | some u => simp [walk_nil]
          | succ k =>
            simp only [List.length_cons] at hj
            rw [List.getElem?_cons_succ, h3 k (by omega)]
            simp only [Option.some_bind, List.take_succ_cons, walk_cons_some _ _ _ _ i hi]

theorem search_path (t : Trie) (key : List Char) (h : Lowercase key) :
    ∃ out, search t key [] = .done out ∧ out.length = key.length + 1 ∧
      ∀ j, j ≤ key.length → out[j]? = some (walk t (key.take j)) := by
  obtain ⟨path, h1, h2, h3⟩ := searchLoop_path key (some t) ([] ++ [some t]) h
  rw [List.nil_append] at h1
  refine ⟨[some t] ++ path, by simp only [search, h1, List.nil_append], by simp [h2], ?_⟩
  intro j hj
  cases j with
  | zero => simp [walk_nil]
  | succ k =>
    rw [List.singleton_append, List.getElem?_cons_succ, h3 k (by omega)]
    rfl

/-! ### Frame of the mutations -/

theorem walk_isSome_iff_pqAt (t : Trie) (p : List Char) :
    (pqAt t p).isSome = (walk t p).isSome := by
  unfold pqAt
  cases walk t p <;> rfl

theorem insert_cons_eq (pq : PQ) (ch : Fin CHAR_SIZE → Option Trie) (c : Char)
    (cs : List Char) (id : Int) (i : Fin CHAR_SIZE) (hc : slot (getIdChild c) = some i) :
    Trie.insert (node pq ch) (c :: cs) id =
      match Trie.insert ((ch i).getD Trie.new) cs id with
      | .done child => .done (node (PQ.insert pq id) (setChild ch i child))
      | .thrown what child => .thrown what (node (PQ.insert pq id) (setChild ch i child))
      | .undefined => .undefined := by
  simp only [Trie.insert, hc]
  cases ch i <;> rfl

theorem insert_frame : ∀ (key : List Char) (t t' : Trie) (id : Int),
    Trie.insert t key id = .done t' → ∀ p, ¬ p <+: key → walk t' p = walk t p := by
  intro key
  induction key with
  | nil =>
    intro t t' id h p hp
    cases t with
    | node pq ch =>
      simp only [Trie.insert, Outcome.done.injEq] at h
      subst h
      cases p with
      | nil => exact absurd List.nil_prefix hp
      | cons d ps => simp only [walk]
  | cons c cs ih =>
    intro t t' id h p hp
    cases t with
    | node pq ch =>
      cases hc : slot (getIdChild c) with
      | none => simp only [Trie.insert, hc] at h; cases h
      | some i =>
        rw [insert_cons_eq pq ch c cs id i hc] at h
        cases hins : Trie.insert ((ch i).getD Trie.new) cs id with
        | thrown what child => rw [hins] at h; cases h
        | undefined => rw [hins] at h; cases h
        | done child' =>
          rw [hins] at h
          simp only [Outcome.done.injEq] at h
          subst h
          cases p with
          | nil => exact absurd List.nil_prefix hp
          | cons d ps =>
            cases hd : slot (getIdChild d) with
            | none => rw [walk_cons_none _ _ _ _ hd, walk_cons_none _ _ _ _ hd]
            | some j =>
              rw [walk_cons_some _ _ _ _ j hd, walk_cons_some _ _ _ _ j hd]
              by_cases hji : j = i
              · subst hji
                have hdc : d = c := slot_getIdChild_inj hd hc
                subst hdc
                have hps : ¬ ps <+: cs := fun hh =>
                  hp (by rw [List.cons_prefix_cons]; exact ⟨rfl, hh⟩)
                simp only [setChild, if_true, Option.some_bind]
                rw [ih _ child' id hins ps hps]
                cases hch : ch j with
                | none =>
                  simp only [Option.none_bind, Option.getD_none]
                  cases ps with
                  | nil => exact absurd List.nil_prefix hps
                  | cons e es =>
                    simp only [Trie.new, walk]
                    cases slot (getIdChild e) <;> rfl
                | some u => rfl
              · simp only [setChild, hji, if_false]

theorem changePriority_frame : ∀ (key : List Char) (t : Trie) (id : Int),
    ∀ t' ∈ (Trie.changePriority t key id).state?,
      (∀ p, ¬ p <+: key → walk t' p = walk t p) ∧
      (∀ p, (walk t' p).isSome = (walk t p).isSome) := by
  intro key
  induction key with
  | nil =>
    intro t id t' ht'
    cases t with
    | node pq ch =>
      simp only [Trie.changePriority] at ht'
      have hshape : ∃ pq', t' = node pq' ch := by
        cases hcp : PQ.changePriority pq id with
        | done after =>
          rw [hcp] at ht'
          simp only [Outcome.state?, Option.mem_def, Option.some.injEq] at ht'
          exact ⟨after, ht'.symm⟩
        | thrown what after =>
          rw [hcp] at ht'
          simp only [Outcome.state?, Option.mem_def, Option.some.injEq] at ht'
          exact ⟨after, ht'.symm⟩
        | undefined => rw [hcp] at ht'; cases ht'
      obtain ⟨pq', rfl⟩ := hshape
      constructor
      · intro p hp
        cases p with
        | nil => exact absurd List.nil_prefix hp
        | cons d ps => simp only [walk]
      · intro p
        cases p with
        | nil => rfl
        | cons d ps => simp only [walk]
  | cons c cs ih =>
    intro t id t' ht'
    cases t with
    | node pq ch =>
      simp only [Trie.changePriority] at ht'
      have hshape : (∃ pq', t' = node pq' ch) ∨
          (∃ pq' i child child', slot (getIdChild c) = some i ∧ ch i = some child ∧
            child' ∈ (Trie.changePriority child cs id).state? ∧
            t' = node pq' (setChild ch i child')) := by
        cases hcp : PQ.changePriority pq id with
        | thrown what after =>
          rw [hcp] at ht'
          simp only [Outcome.state?, Option.mem_def, Option.some.injEq] at ht'
          exact Or.inl ⟨after, ht'.symm⟩
        | undefined => rw [hcp] at ht'; cases ht'
        | done after =>
          rw [hcp] at ht'
          simp only at ht'
          cases hc : slot (getIdChild c) with
          | none => rw [hc] at ht'; cases ht'
          | some i =>
            rw [hc] at ht'
            simp only at ht'
            cases hi : ch i with
            | none => rw [hi] at ht'; cases ht'
            | some child =>
              rw [hi] at ht'
              simp only at ht'
              cases hrec : Trie.changePriority child cs id with
              | done child' =>
                rw [hrec] at ht'
                simp only [Outcome.state?, Option.mem_def, Option.some.injEq] at ht'
                exact Or.inr ⟨after, i, child, child', rfl, hi, by rw [hrec]; rfl, ht'.symm⟩
              | thrown what child' =>
                rw [hrec] at ht'
                simp only [Outcome.state?, Option.mem_def, Option.some.injEq] at ht'
                exact Or.inr ⟨after, i, child, child', rfl, hi, by rw [hrec]; rfl, ht'.symm⟩
              | undefined => rw [hrec] at ht'; cases ht'
      rcases hshape with ⟨pq', rfl⟩ | ⟨pq', i, child, child', hc, hi, hchild, rfl⟩
      · constructor
        · intro p hp
          cases p with
          | nil => exact absurd List.nil_prefix hp
          | cons d ps => simp only [walk]
        · intro p
          cases p with
          | nil => rfl
          | cons d ps => simp only [walk]
      · obtain ⟨ih1, ih2⟩ := ih child id child' hchild
        have key : ∀ (d : Char) (ps : List Char),
            (¬ (d :: ps) <+: (c :: cs) → walk (node pq' (setChild ch i child')) (d :: ps) =
              walk (node pq ch) (d :: ps)) ∧
            (walk (node pq' (setChild ch i child')) (d :: ps)).isSome =
              (walk (node pq ch) (d :: ps)).isSome := by
          intro d ps
          cases hd : slot (getIdChild d) with
          | none =>
            rw [walk_cons_none _ _ _ _ hd, walk_cons_none _ _ _ _ hd]
            exact ⟨fun _ => rfl, rfl⟩
          | some j =>
            rw [walk_cons_some _ _ _ _ j hd, walk_cons_some _ _ _ _ j hd]
            by_cases hji : j = i
            · subst hji
              have hdc : d = c := slot_getIdChild_inj hd hc
              subst hdc
              simp only [setChild, if_true, Option.some_bind, hi]
              refine ⟨fun hp => ih1 ps (fun hh => hp ?_), ih2 ps⟩
              rw [List.cons_prefix_cons]
              exact ⟨rfl, hh⟩
            · simp only [setChild, hji, if_false, implies_true, and_self]
        constructor
        · intro p hp
          cases p with
          | nil => exact absurd List.nil_prefix hp
          | cons d ps => exact (key d ps).1 hp
        · intro p
          cases p with
          | nil => rfl
          | cons d ps => exact (key d ps).2

theorem changePriority_defined : ∀ (key : List Char) (t : Trie) (id : Int),
    (∀ p, p <+: key → (walk t p).isSome) → Trie.changePriority t key id ≠ .undefined := by
  intro key
  induction key with
  | nil =>
    intro t id _ hu
    cases t with
    | node pq ch =>
      simp only [Trie.changePriority] at hu
      by_cases hex : ∃ e ∈ pq, e.1 = id
      · obtain ⟨j, _, _, _, hdone⟩ := PQ.changePriority_present pq id hex
        rw [hdone] at hu
        cases hu
      · rw [PQ.changePriority_absent pq id (fun e he hid => hex ⟨e, he, hid⟩)] at hu
        cases hu
  | cons c cs ih =>
    intro t id h hu
    cases t with
    | node pq ch =>
      simp only [Trie.changePriority] at hu
      by_cases hex : ∃ e ∈ pq, e.1 = id
      · obtain ⟨j, _, _, _, hdone⟩ := PQ.changePriority_present pq id hex
        rw [hdone] at hu
        simp only at hu
        have hc := h [c] (by rw [List.cons_prefix_cons]; exact ⟨rfl, List.nil_prefix⟩)
        cases hs : slot (getIdChild c) with
        | none => rw [walk_cons_none _ _ _ _ hs] at hc; cases hc
        | some i =>
          rw [walk_cons_some _ _ _ _ i hs] at hc
          rw [hs] at hu
          simp only at hu
          cases hi : ch i with
          | none => rw [hi] at hc; cases hc
          | some child =>
            rw [hi] at hu
            simp only at hu
            have hchild : ∀ p, p <+: cs → (walk child p).isSome := by
              intro p hp
              have := h (c :: p) (by rw [List.cons_prefix_cons]; exact ⟨rfl, hp⟩)
              rw [walk_cons_some _ _ _ _ i hs, hi] at this
              exact this
            have hrec := ih child id hchild
            cases hr : Trie.changePriority child cs id with
            | done child' => rw [hr] at hu; cases hu
            | thrown what child' => rw [hr] at hu; cases hu
            | undefined => exact hrec hr
      · rw [PQ.changePriority_absent pq id (fun e he hid => hex ⟨e, he, hid⟩)] at hu
        cases hu

end Trie

/-! ## Lemmas on sequences of calls -/

theorem mem_registered (ops : List Op) (r : List Char × Int) :
    r ∈ registered ops ↔ Op.insert r.1 r.2 ∈ ops := by
  unfold registered
  rw [List.mem_filterMap]
  constructor
  · rintro ⟨o, ho, h⟩
    cases o with
    | insert key id =>
      simp only [Option.some.injEq] at h
      subst h
      exact ho
    | changePriority key id => cases h
  · intro h
    exact ⟨_, h, rfl⟩

theorem registered_append_insert (ops : List Op) (w : List Char) (id : Int) :
    registered (ops ++ [Op.insert w id]) = registered ops ++ [(w, id)] := by
  simp [registered, List.filterMap_append]

theorem registered_append_change (ops : List Op) (w : List Char) (id : Int) :
    registered (ops ++ [Op.changePriority w id]) = registered ops := by
  simp [registered, List.filterMap_append]

theorem uses_append (ops : List Op) (op : Op) (w : List Char) :
    uses (ops ++ [op]) w = uses ops w + (if op.key = w then 1 else 0) := by
  simp only [uses, List.countP_append, List.countP_cons, List.countP_nil, decide_eq_true_eq,
    Nat.zero_add]

theorem uses_eq_zero (ops : List Op) (w : List Char) (h : ∀ o ∈ ops, o.key ≠ w) :
    uses ops w = 0 := by
  unfold uses
  rw [List.countP_eq_zero]
  intro o ho
  simpa using h o ho

theorem countOf_append_ne (ops : List Op) (op : Op) (w : List Char) (h : op.key ≠ w) :
    countOf (ops ++ [op]) w = countOf ops w := by
  unfold countOf
  rw [uses_append, if_neg h, Nat.add_zero]

theorem countOf_append_eq (ops : List Op) (op : Op) (w : List Char) (h : op.key = w) :
    countOf (ops ++ [op]) w = wrapInt (countOf ops w + 1) := by
  unfold countOf
  rw [uses_append, if_pos h, PQ.wrapInt_succ]
  push_cast
  rfl

theorem countOf_of_small (ops : List Op) (w : List Char) (h : uses ops w ≤ 2147483647) :
    countOf ops w = (uses ops w : Int) := by
  unfold countOf
  apply PQ.wrapInt_of_range
  · unfold INT_MIN; omega
  · unfold INT_MAX; omega

theorem disciplined_snoc (ops : List Op) (op : Op) (h : Disciplined (ops ++ [op])) :
    Disciplined ops ∧ okAfter ops op := by
  constructor
  · intro n hn o ho
    have h1 := h n (by simp; omega) o
      (by rw [List.getElem?_append_left hn]; exact ho)
    rw [List.take_append_of_le_length (by omega)] at h1
    exact h1
  · have h1 := h ops.length (by simp) op (by simp)
    simpa using h1

theorem run_snoc : ∀ (ops : List Op) (t : Trie) (op : Op),
    Trie.run t (ops ++ [op]) =
      match Trie.run t ops with
      | .done u => Trie.apply u op
      | .thrown what u => .thrown what u
      | .undefined => .undefined := by
  intro ops
  induction ops with
  | nil =>
    intro t op
    simp only [List.nil_append, Trie.run]
    cases Trie.apply t op <;> rfl
  | cons o ops ih =>
    intro t op
    simp only [List.cons_append, Trie.run]
    cases Trie.apply t o with
    | done u => exact ih u op
    | thrown what u => rfl
    | undefined => rfl

theorem entriesOf_append (u : List Char → Int) (r1 r2 : List (List Char × Int))
    (p : List Char) : entriesOf u (r1 ++ r2) p = entriesOf u r1 p ++ entriesOf u r2 p := by
  simp [entriesOf, List.filter_append]

theorem entriesOf_congr (u v : List Char → Int) (regs : List (List Char × Int)) (p : List Char)
    (h : ∀ r ∈ regs, p <+: r.1 → u r.1 = v r.1) : entriesOf u regs p = entriesOf v regs p := by
  unfold entriesOf
  apply List.map_congr_left
  intro r hr
  rw [List.mem_filter] at hr
  rw [h r hr.1 (by simpa using hr.2)]

theorem entriesOf_singleton (u : List Char → Int) (w : List Char) (id : Int) (p : List Char) :
    entriesOf u [(w, id)] p = if p <+: w then [(id, u w)] else [] := by
  unfold entriesOf
  by_cases h : p <+: w <;> simp [List.filter_cons, h]

theorem entriesOf_cons (u : List Char → Int) (r : List Char × Int)
    (rs : List (List Char × Int)) (p : List Char) :
    entriesOf u (r :: rs) p =
      (if p <+: r.1 then [(r.2, u r.1)] else []) ++ entriesOf u rs p := by
  rw [← entriesOf_singleton, ← entriesOf_append]
  rfl

theorem mem_entriesOf (u : List Char → Int) (regs : List (List Char × Int)) (p : List Char)
    (e : Entry) :
    e ∈ entriesOf u regs p ↔ ∃ r ∈ regs, p <+: r.1 ∧ e = (r.2, u r.1) := by
  unfold entriesOf
  simp only [List.mem_map, List.mem_filter, decide_eq_true_eq]
  constructor
  · rintro ⟨r, ⟨h1, h2⟩, h3⟩
    exact ⟨r, h1, h2, h3.symm⟩
  · rintro ⟨r, h1, h2, h3⟩
    exact ⟨r, ⟨h1, h2⟩, h3.symm⟩

theorem disciplined_lowercase (ops : List Op) (h : Disciplined ops) (w : List Char) (id : Int)
    (hmem : Op.insert w id ∈ ops) : Lowercase w := by
  obtain ⟨n, hn, hget⟩ := List.getElem_of_mem hmem
  have := h n hn (Op.insert w id) (by rw [List.getElem?_eq_getElem hn, hget]; rfl)
  exact this.1

theorem lowercase_initial {p w : List Char} (hp : p <+: w) (hw : Lowercase w) : Lowercase p :=
  fun c hc => hw c (hp.subset hc)

theorem inv_new : Inv [] Trie.new := by
  constructor
  · simp [registered]
  · simp [registered]
  · intro p
    rw [Trie.pqAt_new]
    by_cases hp : p = [] <;> simp [hp, registered]
  · intro p
    rw [Trie.pqAt_new]
    by_cases hp : p = [] <;> simp [hp, entries, entriesOf, registered]

theorem inv_insert (ops : List Op) (t : Trie) (w : List Char) (id : Int) (hinv : Inv ops t)
    (hok : okAfter ops (Op.insert w id)) :
    ∃ t', Trie.insert t w id = .done t' ∧ Inv (ops ++ [Op.insert w id]) t' := by
  obtain ⟨hlow, hfresh⟩ := hok
  obtain ⟨t', hins, hpq⟩ := Trie.insert_spec w t id hlow
  refine ⟨t', hins, ?_⟩
  have hkey : ∀ r ∈ registered ops, r.1 ≠ w ∧ r.2 ≠ id := by
    intro r hr
    exact hfresh _ ((mem_registered ops r).mp hr)
  constructor
  · rw [registered_append_insert, List.map_append, List.nodup_append]
    refine ⟨hinv.ids_nodup, List.nodup_singleton _, ?_⟩
    intro x hx hx'
    obtain ⟨r, hr, rfl⟩ := List.mem_map.mp hx
    simp only [List.map_cons, List.map_nil, List.mem_singleton] at hx'
    exact (hkey r hr).2 hx'
  · rw [registered_append_insert, List.map_append, List.nodup_append]
    refine ⟨hinv.keys_nodup, List.nodup_singleton _, ?_⟩
    intro x hx hx'
    obtain ⟨r, hr, rfl⟩ := List.mem_map.mp hx
    simp only [List.map_cons, List.map_nil, List.mem_singleton] at hx'
    exact (hkey r hr).1 hx'
  · intro p
    rw [hpq p, registered_append_insert]
    by_cases hp : p <+: w
    · simp only [hp, if_true, Option.isSome_some, true_iff]
      right
      exact ⟨(w, id), by simp, hp⟩
    · simp only [hp, if_false]
      rw [hinv.exists_iff p]
      constructor
      · rintro (h | ⟨r, hr, hrp⟩)
        · left; exact h
        · right; exact ⟨r, List.mem_append_left _ hr, hrp⟩
      · rintro (h | ⟨r, hr, hrp⟩)
        · left; exact h
        · rcases List.mem_append.mp hr with hr | hr
          · right; exact ⟨r, hr, hrp⟩
          · simp only [List.mem_singleton] at hr
            subst hr
            exact absurd hrp hp
  · intro p
    rw [hpq p]
    unfold entries
    rw [registered_append_insert, entriesOf_append, entriesOf_singleton]
    have hcongr : entriesOf (countOf (ops ++ [Op.insert w id])) (registered ops) p =
        entries ops p := by
      apply entriesOf_congr
      intro r hr _
      exact countOf_append_ne ops _ r.1 (fun e => (hkey r hr).1 e.symm)
    have huse : countOf (ops ++ [Op.insert w id]) w = 1 := by
      unfold countOf
      rw [uses_append, uses_eq_zero ops w (fun o ho => (hfresh o ho).1)]
      simp only [Op.key, if_true, Nat.zero_add, Nat.cast_one]
      rfl
    rw [hcongr, huse]
    by_cases hp : p <+: w
    · simp only [hp, if_true, Option.getD_some]
      refine (PQ.insert_perm _ id).trans ?_
      refine List.Perm.trans ?_ (@List.perm_append_comm _ [(id, 1)] _)
      exact List.Perm.cons _ (hinv.perm p)
    · simp only [hp, if_false, List.append_nil]
      exact hinv.perm p

theorem inv_change (ops : List Op) (t : Trie) (w : List Char) (id : Int) (hinv : Inv ops t)
    (hok : okAfter ops (Op.changePriority w id)) :
    ∃ t', Trie.changePriority t w id = .done t' ∧
      Inv (ops ++ [Op.changePriority w id]) t' := by
  have hreg : (w, id) ∈ registered ops := (mem_registered ops (w, id)).mpr hok
  obtain ⟨r1, r2, hdecomp⟩ := List.append_of_mem hreg
  have hk := hinv.keys_nodup
  have hi := hinv.ids_nodup
  rw [hdecomp, List.map_append, List.map_cons, List.nodup_middle, List.nodup_cons] at hk hi
  have hkeys1 : ∀ r ∈ r1, r.1 ≠ w := fun r hr e =>
    hk.1 (List.mem_append_left _ (List.mem_map.mpr ⟨r, hr, e⟩))
  have hkeys2 : ∀ r ∈ r2, r.1 ≠ w := fun r hr e =>
    hk.1 (List.mem_append_right _ (List.mem_map.mpr ⟨r, hr, e⟩))
  have hids1 : ∀ r ∈ r1, r.2 ≠ id := fun r hr e =>
    hi.1 (List.mem_append_left _ (List.mem_map.mpr ⟨r, hr, e⟩))
  have hids2 : ∀ r ∈ r2, r.2 ≠ id := fun r hr e =>
    hi.1 (List.mem_append_right _ (List.mem_map.mpr ⟨r, hr, e⟩))
  have hent : ∀ p, p <+: w → entries ops p =
      entriesOf (countOf ops) r1 p ++ (id, countOf ops w) :: entriesOf (countOf ops) r2 p := by
    intro p hp
    unfold entries
    rw [hdecomp, entriesOf_append, entriesOf_cons, if_pos hp]
    rfl
  have hpre : ∀ p, p <+: w → ∃ pq, Trie.pqAt t p = some pq ∧ ∃ e ∈ pq, e.1 = id := by
    intro p hp
    have hsome := (hinv.exists_iff p).mpr (Or.inr ⟨(w, id), hreg, hp⟩)
    obtain ⟨pq, hpq⟩ := Option.isSome_iff_exists.mp hsome
    refine ⟨pq, hpq, (id, countOf ops w), ?_, rfl⟩
    have hperm := hinv.perm p
    rw [hpq, Option.getD_some] at hperm
    apply hperm.symm.subset
    rw [hent p hp]
    simp
  obtain ⟨t', hcp, hc2, hc3⟩ := Trie.changePriority_spec w t id hpre
  refine ⟨t', hcp, ?_⟩
  have hcongr : ∀ (rs : List (List Char × Int)) (p : List Char), (∀ r ∈ rs, r.1 ≠ w) →
      entriesOf (countOf (ops ++ [Op.changePriority w id])) rs p =
        entriesOf (countOf ops) rs p := by
    intro rs p hrs
    apply entriesOf_congr
    intro r hr _
    exact countOf_append_ne ops _ r.1 (fun e => hrs r hr e.symm)
  constructor
  · rw [registered_append_change]; exact hinv.ids_nodup
  · rw [registered_append_change]; exact hinv.keys_nodup
  · intro p
    rw [registered_append_change]
    by_cases hp : p <+: w
    · obtain ⟨pq, after, _, _, hafter⟩ := hc2 p hp
      rw [hafter]
      simp only [Option.isSome_some, true_iff]
      right
      exact ⟨(w, id), hreg, hp⟩
    · rw [hc3 p hp]
      exact hinv.exists_iff p
  · intro p
    by_cases hp : p <+: w
    · obtain ⟨pq, after, hpq, hdone, hafter⟩ := hc2 p hp
      have hperm := hinv.perm p
      rw [hpq, Option.getD_some, hent p hp] at hperm
      have hfilter : pq.filter (fun e => e.1 = id) = [(id, countOf ops w)] := by
        apply List.perm_singleton.mp
        refine (hperm.filter _).trans ?_
        have f1 : (entriesOf (countOf ops) r1 p).filter (fun e => e.1 = id) = [] := by
          rw [List.filter_eq_nil_iff]
          intro e he
          obtain ⟨r, hr, _, rfl⟩ := (mem_entriesOf _ _ _ _).mp he
          simpa using hids1 r hr
        have f2 : (entriesOf (countOf ops) r2 p).filter (fun e => e.1 = id) = [] := by
          rw [List.filter_eq_nil_iff]
          intro e he
          obtain ⟨r, hr, _, rfl⟩ := (mem_entriesOf _ _ _ _).mp he
          simpa using hids2 r hr
        rw [List.filter_append, List.filter_cons, f1, f2]
        simp
      obtain ⟨after', rest, hdone', _, hp1, hp2⟩ :=
        PQ.changePriority_unique pq id _ hfilter
      rw [hdone] at hdone'
      cases hdone'
      have hrest : rest.Perm (entriesOf (countOf ops) r1 p ++ entriesOf (countOf ops) r2 p) :=
        List.Perm.cons_inv ((hp1.symm.trans hperm).trans List.perm_middle)
      rw [hafter, Option.getD_some]
      unfold entries
      rw [registered_append_change, hdecomp, entriesOf_append, entriesOf_cons, if_pos hp,
        hcongr r1 p hkeys1, hcongr r2 p hkeys2,
        countOf_append_eq ops (Op.changePriority w id) w rfl]
      simp only [List.singleton_append]
      exact (hp2.trans (List.Perm.cons _ hrest)).trans List.perm_middle.symm
    · rw [hc3 p hp]
      refine (hinv.perm p).trans ?_
      unfold entries
      rw [registered_append_change]
      apply List.Perm.of_eq
      apply entriesOf_congr
      intro r hr hpr
      exact (countOf_append_ne ops (Op.changePriority w id) r.1
        (fun (e : w = r.1) => hp (e ▸ hpr))).symm

theorem run_inv (ops : List Op) (h : Disciplined ops) :
    ∃ t, Trie.run Trie.new ops = .done t ∧ Inv ops t := by
  induction ops using List.reverseRecOn with
  | nil => exact ⟨Trie.new, rfl, inv_new⟩
  | append_singleton ops op ih =>
    obtain ⟨hd, hok⟩ := disciplined_snoc ops op h
    obtain ⟨t, hrun, hinv⟩ := ih hd
    rw [run_snoc, hrun]
    cases op with
    | insert w id => exact inv_insert ops t w id hinv hok
    | changePriority w id => exact inv_change ops t w id hinv hok

theorem entriesOf_filter_id (u : List Char → Int) (regs : List (List Char × Int))
    (p w : List Char) (id : Int) (hnd : (regs.map Prod.snd).Nodup) (hreg : (w, id) ∈ regs)
    (hp : p <+: w) :
    (entriesOf u regs p).filter (fun e => e.1 = id) = [(id, u w)] := by
  obtain ⟨r1, r2, hdecomp⟩ := List.append_of_mem hreg
  rw [hdecomp, List.map_append, List.map_cons, List.nodup_middle, List.nodup_cons] at hnd
  have f1 : (entriesOf u r1 p).filter (fun e => e.1 = id) = [] := by
    rw [List.filter_eq_nil_iff]
    intro e he
    obtain ⟨r, hr, _, rfl⟩ := (mem_entriesOf _ _ _ _).mp he
    have : r.2 ≠ id := fun e =>
      hnd.1 (List.mem_append_left _ (List.mem_map.mpr ⟨r, hr, e⟩))
    simpa using this
  have f2 : (entriesOf u r2 p).filter (fun e => e.1 = id) = [] := by
    rw [List.filter_eq_nil_iff]
    intro e he
    obtain ⟨r, hr, _, rfl⟩ := (mem_entriesOf _ _ _ _).mp he
    have : r.2 ≠ id := fun e =>
      hnd.1 (List.mem_append_right _ (List.mem_map.mpr ⟨r, hr, e⟩))
    simpa using this
  rw [hdecomp, entriesOf_append, entriesOf_cons, if_pos hp, List.filter_append,
    List.filter_append, f1, f2]
  simp

theorem entries_perm (ops ops' : List Op) (p : List Char) (h : ops.Perm ops') :
    (entries ops p).Perm (entries ops' p) := by
  unfold entries entriesOf
  have hu : countOf ops = countOf ops' := by
    funext w
    unfold countOf uses
    rw [h.countP_eq]
  rw [hu]
  apply List.Perm.map
  apply List.Perm.filter
  exact h.filterMap _

theorem uses_le_length (ops : List Op) (w : List Char) : uses ops w ≤ ops.length :=
  List.countP_le_length _

theorem registered_perm (ops ops' : List Op) (h : ops.Perm ops') :
    (registered ops).Perm (registered ops') :=
  h.filterMap _

theorem perm_pair {α : Type} {a b : α} {l : List α} (h : l.Perm [a, b]) :
    l = [a, b] ∨ l = [b, a] := by
  have hlen := h.length_eq
  match l, hlen with
  | [x, y], _ =>
    have hx : x ∈ [a, b] := h.subset (by simp)
    simp only [List.mem_cons, List.mem_singleton, List.not_mem_nil, or_false] at hx
    rcases hx with rfl | rfl
    · left
      have := List.perm_singleton.mp (List.Perm.cons_inv h)
      simp only [List.cons.injEq, and_true] at this
      rw [this]
    · right
      have h2 : List.Perm [x, y] [x, a] := h.trans (List.Perm.swap _ _ _)
      have := List.perm_singleton.mp (List.Perm.cons_inv h2)
      simp only [List.cons.injEq, and_true] at this
      rw [this]

/-! ### Node existence -/

theorem runCatching_snoc : ∀ (ops : List Op) (t : Trie) (op : Op),
    Trie.runCatching t (ops ++ [op]) =
      (Trie.runCatching t ops).bind (fun u => (Trie.apply u op).state?) := by
  intro ops
  induction ops with
  | nil =>
    intro t op
    simp only [List.nil_append, Trie.runCatching, Option.some_bind]
    cases Trie.apply t op <;> rfl
  | cons o ops ih =>
    intro t op
    simp only [List.cons_append, Trie.runCatching]
    cases Trie.apply t o with
    | done u => exact ih u op
    | thrown what u => exact ih u op
    | undefined => rfl

theorem wellUsed_snoc (ops : List Op) (op : Op) (h : WellUsed (ops ++ [op])) :
    WellUsed ops ∧ okLoose ops op := by
  constructor
  · intro n hn o ho
    have h1 := h n (by simp; omega) o
      (by rw [List.getElem?_append_left hn]; exact ho)
    rw [List.take_append_of_le_length (by omega)] at h1
    exact h1
  · have h1 := h ops.length (by simp) op (by simp)
    simpa using h1

theorem runCatching_exists (ops : List Op) (h : WellUsed ops) :
    ∃ t, Trie.runCatching Trie.new ops = some t ∧
      ∀ p, (Trie.walk t p).isSome ↔ (p = [] ∨ ∃ r ∈ registered ops, p <+: r.1) := by
  induction ops using List.reverseRecOn with
  | nil =>
    refine ⟨Trie.new, rfl, ?_⟩
    intro p
    rw [← Trie.walk_isSome_iff_pqAt, Trie.pqAt_new]
    by_cases hp : p = [] <;> simp [hp, registered]
  | append_singleton ops op ih =>
    obtain ⟨hw, hok⟩ := wellUsed_snoc ops op h
    obtain ⟨t, hrun, hinv⟩ := ih hw
    rw [runCatching_snoc, hrun, Option.some_bind]
    cases op with
    | insert w id =>
      obtain ⟨t', hins, hpq⟩ := Trie.insert_spec w t id hok
      refine ⟨t', by simp only [Trie.apply, hins, Outcome.state?], ?_⟩
      intro p
      rw [← Trie.walk_isSome_iff_pqAt, hpq p, registered_append_insert]
      by_cases hp : p <+: w
      · simp only [hp, if_true, Option.isSome_some, true_iff]
        right
        exact ⟨(w, id), by simp, hp⟩
      · simp only [hp, if_false]
        rw [Trie.walk_isSome_iff_pqAt, hinv p]
        constructor
        · rintro (h | ⟨r, hr, hrp⟩)
          · left; exact h
          · right; exact ⟨r, List.mem_append_left _ hr, hrp⟩
        · rintro (h | ⟨r, hr, hrp⟩)
          · left; exact h
          · rcases List.mem_append.mp hr with hr | hr
            · right; exact ⟨r, hr, hrp⟩
            · simp only [List.mem_singleton] at hr
              subst hr
              exact absurd hrp hp
    | changePriority w id =>
      obtain ⟨r, hr, hrw⟩ := List.mem_map.mp hok
      have hpath : ∀ p, p <+: w → (Trie.walk t p).isSome := fun p hp =>
        (hinv p).mpr (Or.inr ⟨r, hr, hrw ▸ hp⟩)
      have hdef := Trie.changePriority_defined w t id hpath
      have hstate : ∃ t', (Trie.changePriority t w id).state? = some t' := by
        cases hc : Trie.changePriority t w id with
        | done u => exact ⟨u, rfl⟩
        | thrown what u => exact ⟨u, rfl⟩
        | undefined => exact absurd hc hdef
      obtain ⟨t', ht'⟩ := hstate
      refine ⟨t', by simp only [Trie.apply, ht'], ?_⟩
      intro p
      rw [registered_append_change, ← hinv p,
        (Trie.changePriority_frame w t id t' ht').2 p]

/-! ### The id registry -/

namespace StdMap

theorem find?_append (m n : StdMap) (key : List Char) :
    find? (m ++ n) key = (find? m key).orElse (fun _ => find? n key) := by
  induction m with
  | nil => rfl
  | cons e m ih =>
    obtain ⟨k, v⟩ := e
    simp only [List.cons_append, find?]
    split_ifs
    · rfl
    · exact ih

end StdMap

theorem registerAll_snoc : ∀ (ws : List (List Char)) (wc : wordCompletion) (w : List Char),
    wc.registerAll (ws ++ [w]) =
      ((wc.registerAll ws).1 ++ [((wc.registerAll ws).2.registerKey w).1],
        ((wc.registerAll ws).2.registerKey w).2) := by
  intro ws
  induction ws with
  | nil => intro wc w; rfl
  | cons v ws ih =>
    intro wc w
    rw [List.cons_append]
    simp only [wordCompletion.registerAll]
    rw [ih]
    rfl

theorem registerAll_spec (D : Trie) (ws : List (List Char)) (hnd : ws.Nodup) :
    (wordCompletion.registerAll ⟨D, [], 0⟩ ws).1 =
      (List.range ws.length).map (fun i => wrapInt (Int.ofNat i)) ∧
    (wordCompletion.registerAll ⟨D, [], 0⟩ ws).2.id_counter = wrapInt (Int.ofNat ws.length) ∧
    (∀ i (h : i < ws.length),
      StdMap.find? (wordCompletion.registerAll ⟨D, [], 0⟩ ws).2.Words ws[i] =
        some (wrapInt (Int.ofNat i))) ∧
    (∀ w, w ∉ ws → StdMap.find? (wordCompletion.registerAll ⟨D, [], 0⟩ ws).2.Words w = none) := by
  induction ws using List.reverseRecOn with
  | nil => exact ⟨rfl, rfl, fun i h => by simp at h, fun w _ => rfl⟩
  | append_singleton ws w ih =>
    rw [List.nodup_append] at hnd
    obtain ⟨hnd1, _, hdisj⟩ := hnd
    have hw : w ∉ ws := fun hmem => hdisj hmem (by simp)
    obtain ⟨h1, h2, h3, h4⟩ := ih hnd1
    rw [registerAll_snoc]
    have hcount : StdMap.count (wordCompletion.registerAll ⟨D, [], 0⟩ ws).2.Words w = 0 := by
      simp [StdMap.count, h4 w hw]
    refine ⟨?_, ?_, ?_, ?_⟩
    · simp only [wordCompletion.registerKey, h1, h2, List.length_append, List.length_singleton,
        List.range_succ, List.map_append, List.map_cons, List.map_nil]
    · simp only [wordCompletion.registerKey, h2, List.length_append, List.length_singleton]
      rw [PQ.wrapInt_succ]
      rfl
    · intro i hi
      simp only [wordCompletion.registerKey, StdMap.emplace, hcount, if_true,
        StdMap.find?_append]
      by_cases hlt : i < ws.length
      · rw [List.getElem_append_left hlt, h3 i hlt]
        rfl
      · have hi' : i = ws.length := by
          simp only [List.length_append, List.length_singleton] at hi
          omega
        subst hi'
        simp only [List.getElem_concat_length, h4 w hw, h2]
        simp [StdMap.find?]
    · intro v hv
      simp only [List.mem_append, List.mem_singleton, not_or] at hv
      simp only [wordCompletion.registerKey, StdMap.emplace, hcount, if_true,
        StdMap.find?_append, h4 v hv.1]
      have : ¬ w = v := fun e => hv.2 e.symm
      simp [StdMap.find?, this]

theorem wrapInt_ofNat (i : Nat) (h : i ≤ 2147483647) : wrapInt (Int.ofNat i) = (i : Int) := by
  apply PQ.wrapInt_of_range
  · unfold INT_MIN; simp only [Int.ofNat_eq_coe]; omega
  · unfold INT_MAX; simp only [Int.ofNat_eq_coe]; omega

/-! ### Sequences that reach `INT_MAX` -/

theorem disciplined_insert_replicate (w : List Char) (id : Int) (n : Nat) (hw : Lowercase w) :
    Disciplined (Op.insert w id :: List.replicate n (Op.changePriority w id)) := by
  intro k hk op hop
  cases k with
  | zero =>
    simp only [List.getElem?_cons_zero, Option.mem_def, Option.some.injEq] at hop
    subst hop
    exact ⟨hw, fun o ho => by simp at ho⟩
  | succ k =>
    rw [List.getElem?_cons_succ, List.getElem?_replicate] at hop
    split_ifs at hop with hkn
    · simp only [Option.mem_def, Option.some.injEq] at hop
      subst hop
      show Op.insert w id ∈ List.take (k + 1) (Op.insert w id :: _)
      rw [List.take_succ_cons]
      exact List.mem_cons_self _ _
    · cases hop

theorem uses_insert_replicate (w : List Char) (id : Int) (n : Nat) :
    uses (Op.insert w id :: List.replicate n (Op.changePriority w id)) w = n + 1 := by
  unfold uses
  rw [List.countP_cons, List.countP_replicate]
  simp [Op.key]

theorem overflowWords_nodup : overflowWords.Nodup := by
  unfold overflowWords
  apply List.Nodup.map _ (List.nodup_range _)
  intro a b hab
  have := congrArg List.length hab
  simpa using this

theorem checkId_eq (wc : wordCompletion) (key : List Char) :
    wc.checkId key = (StdMap.find? wc.Words key).getD (-1) := by
  unfold wordCompletion.checkId StdMap.count StdMap.get
  cases StdMap.find? wc.Words key <;> simp

/-! ### Lemmas for the frame and the failure of `changePriority` -/

namespace Trie

theorem walk_singleton (pq : PQ) (ch : Fin CHAR_SIZE → Option Trie) (c : Char)
    (i : Fin CHAR_SIZE) (h : slot (getIdChild c) = some i) : walk (node pq ch) [c] = ch i := by
  rw [walk_cons_some _ _ _ _ i h]
  cases ch i with
  | none => rfl
  | some u => simp [walk_nil]

theorem children_eq_walk (n : Trie) (c : Char) (i : Fin CHAR_SIZE)
    (h : slot (getIdChild c) = some i) : n.children i = walk n [c] := by
  cases n with
  | node pq ch => rw [walk_singleton pq ch c i h]; rfl

theorem changePriority_null_undefined : ∀ (q : List Char) (t : Trie) (id : Int) (c : Char)
    (rest : List Char),
    (∀ p, p <+: q → ∃ pq, pqAt t p = some pq ∧ ∃ e ∈ pq, e.1 = id) →
    walk t (q ++ [c]) = none →
    Trie.changePriority t (q ++ c :: rest) id = .undefined := by
  intro q
  induction q with
  | nil =>
    intro t id c rest h hnull
    cases t with
    | node pq ch =>
      obtain ⟨pq0, h0, hmem⟩ := h [] List.nil_prefix
      cases h0
      obtain ⟨j, _, _, _, hdone⟩ := PQ.changePriority_present pq id hmem
      simp only [List.nil_append, Trie.changePriority, hdone]
      cases hs : slot (getIdChild c) with
      | none => rfl
      | some i =>
        rw [List.nil_append, walk_singleton pq ch c i hs] at hnull
        simp only [hnull]
  | cons d q ih =>
    intro t id c rest h hnull
    cases t with
    | node pq ch =>
      obtain ⟨pq0, h0, hmem⟩ := h [] List.nil_prefix
      cases h0
      obtain ⟨j, _, _, _, hdone⟩ := PQ.changePriority_present pq id hmem
      obtain ⟨pqd, hpqd, _⟩ := h [d] (by rw [List.cons_prefix_cons]; exact ⟨rfl, List.nil_prefix⟩)
      cases hs : slot (getIdChild d) with
      | none => rw [pqAt_cons_none _ _ _ _ hs] at hpqd; cases hpqd
      | some i =>
        rw [pqAt_cons_some _ _ _ _ i hs] at hpqd
        cases hch : ch i with
        | none => rw [hch] at hpqd; cases hpqd
        | some child =>
          have hchild : ∀ p, p <+: q → ∃ pq, pqAt child p = some pq ∧ ∃ e ∈ pq, e.1 = id := by
            intro p hp
            have := h (d :: p) (by rw [List.cons_prefix_cons]; exact ⟨rfl, hp⟩)
            rw [pqAt_cons_some _ _ _ _ i hs, hch] at this
            exact this
          have hnull' : walk child (q ++ [c]) = none := by
            rw [List.cons_append, walk_cons_some _ _ _ _ i hs, hch] at hnull
            exact hnull
          have hrec := ih child id c rest hchild hnull'
          simp only [List.cons_append, Trie.changePriority, hdone, hs, hch, hrec]

end Trie

theorem prefixes_length_le (key : List Char) (ps : List (List Char)) (hnd : ps.Nodup)
    (h : ∀ p ∈ ps, p <+: key ∧ p ≠ []) : ps.length ≤ key.length := by
  have hinj : (ps.map List.length).Nodup := by
    apply List.Nodup.map_on _ hnd
    intro a ha b hb hab
    have h1 := List.prefix_iff_eq_take.mp (h a ha).1
    have h2 := List.prefix_iff_eq_take.mp (h b hb).1
    rw [h1, h2, hab]
  have hsub : ps.map List.length ⊆ List.range' 1 key.length := by
    intro n hn
    obtain ⟨p, hp, rfl⟩ := List.mem_map.mp hn
    obtain ⟨h1, h2⟩ := h p hp
    have := h1.length_le
    have : 0 < p.length := List.length_pos.mpr h2
    rw [List.mem_range']
    exact ⟨p.length - 1, by omega, by omega⟩
  have := (List.subperm_of_subset hinj hsub).length_le
  simpa using this

/-! ## Theorems on the priority queue -/

/-- C1: on a tracker with the max-heap property, `getKMax k` returns ids
highest count first.  The first `min k n` returned ids are the ids of entries
`es` sitting in the tracker next to the entries `rest` left out; the counts of
`es` are the `min k n` largest counts of the tracker in descending order (with
multiplicity), so they are non-increasing and no entry left out has a count
greater than a returned one. -/
theorem getKMax_ranked (pq : PQ) (k : Int) (hheap : PQ.IsHeap pq) :
    ∃ (res : List Int) (es rest : List Entry),
      PQ.getKMax pq k = .done (res, pq) ∧
      (es ++ rest).Perm pq ∧
      es.length = min k.toNat (PQ.size pq) ∧
      res.take (min k.toNat (PQ.size pq)) = es.map Prod.fst ∧
      es.map Prod.snd =
        ((pq.map Prod.snd).insertionSort (· ≥ ·)).take (min k.toNat (PQ.size pq)) ∧
      (es.map Prod.snd).Sorted (· ≥ ·) ∧
      ∀ e ∈ es, ∀ r ∈ rest, r.2 ≤ e.2 := by
  obtain ⟨es, rest, h1, h2, h3, h4⟩ := PQ.getKMax_spec pq k
  obtain ⟨h5, h6⟩ := h4 hheap
  unfold PQ.size
  refine ⟨_, es, rest, h1, h3, h2, ?_, ?_, h5, h6⟩
  · rw [← h2]
    exact List.take_left' (by simp)
  · have hs : ((es.map Prod.snd) ++ (rest.map Prod.snd).insertionSort (· ≥ ·)).Sorted (· ≥ ·) := by
      unfold List.Sorted
      rw [List.pairwise_append]
      refine ⟨h5, List.sorted_insertionSort _ _, ?_⟩
      intro a ha b hb
      obtain ⟨e, he, rfl⟩ := List.mem_map.mp ha
      have hb' := (List.perm_insertionSort _ _).subset hb
      obtain ⟨r, hr, rfl⟩ := List.mem_map.mp hb'
      exact h6 e he r hr
    have hp : ((es.map Prod.snd) ++ (rest.map Prod.snd).insertionSort (· ≥ ·)).Perm
        ((pq.map Prod.snd).insertionSort (· ≥ ·)) := by
      refine List.Perm.trans ?_ (List.perm_insertionSort _ _).symm
      refine List.Perm.trans ?_ (h3.map Prod.snd)
      rw [List.map_append]
      exact List.Perm.append_left _ (List.perm_insertionSort _ _)
    have heq := List.eq_of_perm_of_sorted hp hs (List.sorted_insertionSort _ _)
    rw [← heq, ← h2]
    exact (List.take_left' (by simp)).symm

/-- Witness for `getKMax_ranked`. -/
theorem getKMax_ranked_witness :
    PQ.IsHeap [(7, 5), (6, 3), (5, 4)] ∧
    ∃ (res : List Int) (es rest : List Entry),
      PQ.getKMax [(7, 5), (6, 3), (5, 4)] 2 = .done (res, [(7, 5), (6, 3), (5, 4)]) ∧
      (es ++ rest).Perm [(7, 5), (6, 3), (5, 4)] ∧
      es.length = min (2 : Int).toNat (PQ.size [(7, 5), (6, 3), (5, 4)]) ∧
      res.take (min (2 : Int).toNat (PQ.size [(7, 5), (6, 3), (5, 4)])) = es.map Prod.fst ∧
      es.map Prod.snd =
        (((([(7, 5), (6, 3), (5, 4)] : PQ)).map Prod.snd).insertionSort (· ≥ ·)).take
          (min (2 : Int).toNat (PQ.size [(7, 5), (6, 3), (5, 4)])) ∧
      (es.map Prod.snd).Sorted (· ≥ ·) ∧
      ∀ e ∈ es, ∀ r ∈ rest, r.2 ≤ e.2 :=
  ⟨by decide, getKMax_ranked [(7, 5), (6, 3), (5, 4)] 2 (by decide)⟩

/-- C2: `getKMax k` returns exactly `max k 0` entries: the ids found at
`min k n` distinct positions `ps` of the tracker, followed by the sentinel
`-1` in every remaining slot; the result is empty for `k ≤ 0` and is `k`
copies of `-1` on an empty tracker. -/
theorem getKMax_length_padding (pq : PQ) (k : Int) :
    ∃ (res : List Int) (ps : List Nat),
      PQ.getKMax pq k = .done (res, pq) ∧
      (res.length : Int) = max k 0 ∧
      ps.Nodup ∧ (∀ p ∈ ps, p < PQ.size pq) ∧
      ps.length = min k.toNat (PQ.size pq) ∧
      res = ps.map (PQ.first pq) ++ List.replicate (k.toNat - PQ.size pq) (-1) ∧
      (k ≤ 0 → res = []) ∧
      (pq = [] → res = List.replicate k.toNat (-1)) := by
  obtain ⟨es, rest, h1, h2, h3, _⟩ := PQ.getKMax_spec pq k
  obtain ⟨ps, hnd, hlt, hes⟩ := PQ.exists_positions ((0, 0) : Entry) es rest pq h3
  have hmap : es.map Prod.fst = ps.map (PQ.first pq) := by
    rw [hes, List.map_map]
    rfl
  have hlen : ps.length = es.length := by
    rw [hes, List.length_map]
  refine ⟨_, ps, h1, ?_, hnd, hlt, by rw [hlen, h2]; rfl, by rw [hmap]; rfl, ?_, ?_⟩
  · simp only [List.length_append, List.length_map, List.length_replicate, h2]
    omega
  · intro hk
    have hk0 : k.toNat = 0 := by omega
    have : es = [] := List.eq_nil_of_length_eq_zero (by rw [h2, hk0]; simp)
    simp [this, hk0]
  · intro hpq
    subst hpq
    have : es = [] := List.eq_nil_of_length_eq_zero (by rw [h2]; simp)
    simp [this]

/-- C3: `getKMax` leaves the entry array as it was, for `PQ::getKMax` and for
`Trie::getKMax`, which returns what the tracker of the node returns; a second
call right after the first returns the same result. -/
theorem getKMax_no_mutation (pq : PQ) (k : Int) (ch : Fin CHAR_SIZE → Option Trie) :
    ∃ (res : List Int) (after : PQ),
      PQ.getKMax pq k = .done (res, after) ∧ after = pq ∧
      PQ.getKMax after k = .done (res, pq) ∧
      Trie.getKMax (Trie.node pq ch) k = .done (res, Trie.node pq ch) ∧
      Trie.getKMax (Trie.node after ch) k = .done (res, Trie.node pq ch) := by
  obtain ⟨es, rest, h1, _⟩ := PQ.getKMax_spec pq k
  refine ⟨_, pq, h1, rfl, h1, ?_, ?_⟩ <;> simp only [Trie.getKMax, h1]

/-- C8: on a non-empty tracker with the max-heap property, `deleteMax` returns
an entry whose count is at least the count of every entry, and leaves a tracker
with one entry fewer holding the previous entries minus one occurrence of the
returned one. -/
theorem deleteMax_max (pq : PQ) (hne : pq ≠ []) (hheap : PQ.IsHeap pq) :
    ∃ (e : Entry) (rest : PQ),
      PQ.deleteMax pq = .done (e, rest) ∧
      (∀ x ∈ pq, x.2 ≤ e.2) ∧
      PQ.size rest + 1 = PQ.size pq ∧
      e ∈ pq ∧
      (rest : Multiset Entry) = (pq : Multiset Entry).erase e := by
  obtain ⟨rest, h1, h2, h3, h4⟩ := PQ.deleteMax_spec pq hne
  refine ⟨_, rest, h1, (h4 hheap).2, h3, h2.subset (by simp), ?_⟩
  have : (pq : Multiset Entry) = PQ.cell pq 0 ::ₘ (rest : Multiset Entry) := by
    rw [Multiset.cons_coe]
    exact Quotient.sound h2.symm
  rw [this, Multiset.erase_cons_head]

/-- Witness for `deleteMax_max`. -/
theorem deleteMax_max_witness :
    ([(7, 5), (6, 3), (5, 4)] : PQ) ≠ [] ∧ PQ.IsHeap [(7, 5), (6, 3), (5, 4)] ∧
    ∃ (e : Entry) (rest : PQ),
      PQ.deleteMax [(7, 5), (6, 3), (5, 4)] = .done (e, rest) ∧
      (∀ x ∈ ([(7, 5), (6, 3), (5, 4)] : PQ), x.2 ≤ e.2) ∧
      PQ.size rest + 1 = PQ.size [(7, 5), (6, 3), (5, 4)] ∧
      e ∈ ([(7, 5), (6, 3), (5, 4)] : PQ) ∧
      (rest : Multiset Entry) = (([(7, 5), (6, 3), (5, 4)] : PQ) : Multiset Entry).erase e :=
  ⟨by decide, by decide, deleteMax_max [(7, 5), (6, 3), (5, 4)] (by decide) (by decide)⟩

/-- C9, as stated, fails at the greatest `int`: the entry `(0, 2147483647)`
is the only one with id 0, and after `changePriority 0` the tracker holds
`(0, -2147483648)`, not `(0, 2147483648)`. -/
theorem changePriority_overflow :
    ([(0, 2147483647)] : PQ).filter (fun e => e.1 = 0) = [(0, 2147483647)] ∧
    PQ.changePriority [(0, 2147483647)] 0 = .done [(0, -2147483648)] ∧
    ((0, 2147483647 + 1) : Entry) ∉ ([(0, -2147483648)] : PQ) := by
  refine ⟨by decide, by decide, by decide⟩

/-- C9, amended: when `id` occurs in exactly one entry `(id, c)` and `c` is an
`int` below `INT_MAX`, `changePriority id` completes normally and leaves a
tracker of the same size whose entries are the previous ones with `(id, c)`
replaced by `(id, c + 1)`; the entries of every other id are untouched. -/
theorem changePriority_increments (pq : PQ) (id c : Int)
    (h : pq.filter (fun e => e.1 = id) = [(id, c)]) (hlo : INT_MIN ≤ c) (hhi : c < INT_MAX) :
    ∃ after : PQ,
      PQ.changePriority pq id = .done after ∧
      PQ.size after = PQ.size pq ∧
      (after : Multiset Entry) = (pq : Multiset Entry).erase (id, c) + {(id, c + 1)} ∧
      (∀ e : Entry, e.1 ≠ id →
        Multiset.count e (after : Multiset Entry) = Multiset.count e (pq : Multiset Entry)) := by
  obtain ⟨after, rest, hdone, hlen, hp1, hp3⟩ := PQ.changePriority_unique pq id c h
  rw [PQ.wrapInt_incr c hlo hhi] at hp3
  have e1 : (pq : Multiset Entry) = (id, c) ::ₘ (rest : Multiset Entry) := by
    rw [Multiset.cons_coe]; exact Quotient.sound hp1
  have e2 : (after : Multiset Entry) = (id, c + 1) ::ₘ (rest : Multiset Entry) := by
    rw [Multiset.cons_coe]; exact Quotient.sound hp3
  refine ⟨after, hdone, hlen, ?_, ?_⟩
  · rw [e1, e2, Multiset.erase_cons_head, ← Multiset.singleton_add]
    exact add_comm _ _
  · intro e he
    rw [e1, e2, Multiset.count_cons_of_ne, Multiset.count_cons_of_ne]
    · intro heq; exact he (by rw [heq])
    · intro heq; exact he (by rw [heq])

/-- Witness for `changePriority_increments`. -/
theorem changePriority_increments_witness :
    ([(7, 5), (6, 3), (5, 4)] : PQ).filter (fun e => e.1 = 6) = [(6, 3)] ∧
    INT_MIN ≤ (3 : Int) ∧ (3 : Int) < INT_MAX ∧
    ∃ after : PQ,
      PQ.changePriority [(7, 5), (6, 3), (5, 4)] 6 = .done after ∧
      PQ.size after = PQ.size [(7, 5), (6, 3), (5, 4)] ∧
      (after : Multiset Entry) =
        (([(7, 5), (6, 3), (5, 4)] : PQ) : Multiset Entry).erase (6, 3) + {(6, 3 + 1)} ∧
      (∀ e : Entry, e.1 ≠ 6 →
        Multiset.count e (after : Multiset Entry) =
          Multiset.count e (([(7, 5), (6, 3), (5, 4)] : PQ) : Multiset Entry)) :=
  ⟨by decide, by decide, by decide,
    changePriority_increments [(7, 5), (6, 3), (5, 4)] 6 3 (by decide) (by decide) (by decide)⟩

/-- C10: `changePriority id` throws `std::invalid_argument` with the message
"ID not present in PQ." exactly when no entry has that id, it has no other way
to fail, and at the throw the entry array is the one it was called on. -/
theorem changePriority_throws_iff (pq : PQ) (id : Int) :
    ((∃ what after, PQ.changePriority pq id = .thrown what after) ↔ ∀ e ∈ pq, e.1 ≠ id) ∧
    (∀ what after, PQ.changePriority pq id = .thrown what after →
      what = "ID not present in PQ." ∧ after = pq) ∧
    PQ.changePriority pq id ≠ .undefined := by
  by_cases h : ∃ e ∈ pq, e.1 = id
  · obtain ⟨j, _, _, _, hdone⟩ := PQ.changePriority_present pq id h
    rw [hdone]
    refine ⟨⟨?_, ?_⟩, ?_, ?_⟩
    · rintro ⟨w, a, hw⟩; cases hw
    · intro hall
      obtain ⟨e, he, hid⟩ := h
      exact absurd hid (hall e he)
    · intro w a hw; cases hw
    · intro hw; cases hw
  · have hall : ∀ e ∈ pq, e.1 ≠ id := fun e he hid => h ⟨e, he, hid⟩
    have hthrow := PQ.changePriority_absent pq id hall
    rw [hthrow]
    refine ⟨⟨fun _ => hall, fun _ => ⟨_, _, rfl⟩⟩, ?_, ?_⟩
    · intro w a hw
      cases hw
      exact ⟨rfl, rfl⟩
    · intro hw; cases hw

/-! ## Theorems on the trie -/

/-- C4, as stated, fails once a word is used more often than `INT_MAX`: after
one insert of "a" with id 0 and 2147483647 increments, a disciplined sequence
in which "a" is used 2147483648 times, the root tracker holds the single
entry `(0, -2147483648)` for id 0. -/
theorem frequency_overflow :
    Disciplined overflowOps ∧ Op.insert "a".toList 0 ∈ overflowOps ∧
    uses overflowOps "a".toList = 2147483648 ∧
    ∃ t, Trie.run Trie.new overflowOps = .done t ∧
      ∃ n, Trie.walk t [] = some n ∧
        n.pq.filter (fun e => e.1 = 0) = [(0, -2147483648)] ∧
        n.pq.filter (fun e => e.1 = 0) ≠ [(0, (uses overflowOps "a".toList : Int))] := by
  have hd : Disciplined overflowOps :=
    disciplined_insert_replicate "a".toList 0 2147483647 (by decide)
  have hmem : Op.insert "a".toList 0 ∈ overflowOps := List.mem_cons_self _ _
  have huses : uses overflowOps "a".toList = 2147483648 :=
    uses_insert_replicate "a".toList 0 2147483647
  obtain ⟨t, hrun, hinv⟩ := run_inv overflowOps hd
  have hreg : ("a".toList, (0 : Int)) ∈ registered overflowOps :=
    (mem_registered overflowOps ("a".toList, 0)).mpr hmem
  have hperm := hinv.perm []
  rw [Trie.pqAt_nil, Option.getD_some] at hperm
  have hfilter : t.pq.filter (fun e => e.1 = 0) = [(0, -2147483648)] := by
    apply List.perm_singleton.mp
    refine (hperm.filter _).trans ?_
    rw [entries, entriesOf_filter_id _ _ [] "a".toList 0 hinv.ids_nodup hreg List.nil_prefix]
    have hc : countOf overflowOps "a".toList = -2147483648 := by
      unfold countOf
      rw [huses]
      decide
    rw [hc]
  refine ⟨hd, hmem, huses, t, hrun, t, Trie.walk_nil t, hfilter, ?_⟩
  rw [hfilter, huses]
  decide

/-- C4, amended: frequency correctness up to `INT_MAX` uses.  After a sequence
of calls that follows the engine discipline, the calls all return normally,
and for every inserted word `w` with id `id`, used `m = uses ops w ≥ 1` times,
and every prefix `p` of `w` (the empty prefix and `w` included), the node
reached by walking `p` exists (it is the last entry of the search path of
`p`) and its tracker holds exactly one entry with that id, whose count is `m`
as an `int`: `m` itself when `m ≤ 2147483647`. -/
theorem frequency_correct (ops : List Op) (h : Disciplined ops) :
    ∃ t, Trie.run Trie.new ops = .done t ∧
      ∀ w id, Op.insert w id ∈ ops → ∀ p, p <+: w →
        1 ≤ uses ops w ∧
        ∃ n, Trie.walk t p = some n ∧ Trie.lastOfSearch t p = .done (some n) ∧
          n.pq.filter (fun e => e.1 = id) = [(id, wrapInt (uses ops w))] ∧
          (uses ops w ≤ 2147483647 →
            n.pq.filter (fun e => e.1 = id) = [(id, (uses ops w : Int))]) := by
  obtain ⟨t, hrun, hinv⟩ := run_inv ops h
  refine ⟨t, hrun, ?_⟩
  intro w id hmem p hp
  have hreg : (w, id) ∈ registered ops := (mem_registered ops (w, id)).mpr hmem
  constructor
  · unfold uses
    exact List.countP_pos_iff.mpr ⟨_, hmem, by simp [Op.key]⟩
  · have hsome := (hinv.exists_iff p).mpr (Or.inr ⟨(w, id), hreg, hp⟩)
    obtain ⟨pq, hpq⟩ := Option.isSome_iff_exists.mp hsome
    unfold Trie.pqAt at hpq
    obtain ⟨n, hn, rfl⟩ := Option.map_eq_some'.mp hpq
    have hlow : Lowercase p := lowercase_initial hp (disciplined_lowercase ops h w id hmem)
    have hperm := hinv.perm p
    simp only [Trie.pqAt, hn, Option.map_some', Option.getD_some] at hperm
    have hfilter : n.pq.filter (fun e => e.1 = id) = [(id, wrapInt (uses ops w))] := by
      apply List.perm_singleton.mp
      refine (hperm.filter _).trans ?_
      rw [entries, entriesOf_filter_id _ _ p w id hinv.ids_nodup hreg hp]
      rfl
    refine ⟨n, hn, by rw [Trie.lastOfSearch_eq_walk t p hlow, hn], hfilter, ?_⟩
    intro hsmall
    rw [hfilter]
    have := countOf_of_small ops w hsmall
    unfold countOf at this
    rw [this]

/-- Witness for `frequency_correct`. -/
theorem frequency_correct_witness :
    Disciplined scenarioOps ∧
    ∃ t, Trie.run Trie.new scenarioOps = .done t ∧
      ∀ w id, Op.insert w id ∈ scenarioOps → ∀ p, p <+: w →
        1 ≤ uses scenarioOps w ∧
        ∃ n, Trie.walk t p = some n ∧ Trie.lastOfSearch t p = .done (some n) ∧
          n.pq.filter (fun e => e.1 = id) = [(id, wrapInt (uses scenarioOps w))] ∧
          (uses scenarioOps w ≤ 2147483647 →
            n.pq.filter (fun e => e.1 = id) = [(id, (uses scenarioOps w : Int))]) :=
  ⟨by decide, frequency_correct scenarioOps (by decide)⟩

/-- C5: prefix membership.  After a sequence of calls that follows the engine
discipline, at every existing node reached by walking `p` (the last entry of the
search path of `p`, for a lowercase `p`) the ids in the tracker are exactly the ids of the inserted words that start with `p`; the id
of a word that does not start with `p` is not there, and `getKMax` at that
node returns only such ids and the sentinel `-1`. -/
theorem prefix_membership (ops : List Op) (h : Disciplined ops) :
    ∃ t, Trie.run Trie.new ops = .done t ∧
      ∀ p n, Trie.walk t p = some n →
        (Lowercase p → Trie.lastOfSearch t p = .done (some n)) ∧
        (∀ id, id ∈ n.pq.map Prod.fst ↔ ∃ w, Op.insert w id ∈ ops ∧ p <+: w) ∧
        (∀ w id, Op.insert w id ∈ ops → ¬ p <+: w → id ∉ n.pq.map Prod.fst) ∧
        (∀ k res n', Trie.getKMax n k = .done (res, n') →
          ∀ i ∈ res, i = -1 ∨ ∃ w, Op.insert w i ∈ ops ∧ p <+: w) := by
  obtain ⟨t, hrun, hinv⟩ := run_inv ops h
  refine ⟨t, hrun, ?_⟩
  intro p n hn
  have hperm := hinv.perm p
  simp only [Trie.pqAt, hn, Option.map_some', Option.getD_some] at hperm
  have hiff : ∀ id, id ∈ n.pq.map Prod.fst ↔ ∃ w, Op.insert w id ∈ ops ∧ p <+: w := by
    intro id
    constructor
    · intro hid
      obtain ⟨e, he, rfl⟩ := List.mem_map.mp hid
      obtain ⟨r, hr, hrp, rfl⟩ := (mem_entriesOf _ _ _ _).mp (hperm.subset he)
      exact ⟨r.1, (mem_registered ops r).mp hr, hrp⟩
    · rintro ⟨w, hw, hwp⟩
      have hreg : (w, id) ∈ registered ops := (mem_registered ops (w, id)).mpr hw
      have : (id, countOf ops w) ∈ entries ops p :=
        (mem_entriesOf _ _ _ _).mpr ⟨(w, id), hreg, hwp, rfl⟩
      exact List.mem_map.mpr ⟨_, hperm.symm.subset this, rfl⟩
  refine ⟨fun hlow => by rw [Trie.lastOfSearch_eq_walk t p hlow, hn], hiff, ?_, ?_⟩
  · intro w id hw hnp hid
    obtain ⟨w', hw', hp'⟩ := (hiff id).mp hid
    have h1 : (w, id) ∈ registered ops := (mem_registered ops (w, id)).mpr hw
    have h2 : (w', id) ∈ registered ops := (mem_registered ops (w', id)).mpr hw'
    have := List.inj_on_of_nodup_map hinv.ids_nodup h1 h2 rfl
    simp only [Prod.mk.injEq, and_true] at this
    exact hnp (this ▸ hp')
  · intro k res n' hk i hi
    cases n with
    | node pq ch =>
      obtain ⟨es, rest, h1, _, h3, _⟩ := PQ.getKMax_spec pq k
      simp only [Trie.getKMax, h1, Outcome.done.injEq, Prod.mk.injEq] at hk
      rw [← hk.1] at hi
      rcases List.mem_append.mp hi with hi | hi
      · right
        apply (hiff i).mp
        obtain ⟨e, he, rfl⟩ := List.mem_map.mp hi
        exact List.mem_map.mpr ⟨e, h3.subset (List.mem_append_left _ he), rfl⟩
      · left
        exact (List.mem_replicate.mp hi).2

/-- Witness for `prefix_membership`. -/
theorem prefix_membership_witness :
    Disciplined scenarioOps ∧
    ∃ t, Trie.run Trie.new scenarioOps = .done t ∧
      ∀ p n, Trie.walk t p = some n →
        (Lowercase p → Trie.lastOfSearch t p = .done (some n)) ∧
        (∀ id, id ∈ n.pq.map Prod.fst ↔ ∃ w, Op.insert w id ∈ scenarioOps ∧ p <+: w) ∧
        (∀ w id, Op.insert w id ∈ scenarioOps → ¬ p <+: w → id ∉ n.pq.map Prod.fst) ∧
        (∀ k res n', Trie.getKMax n k = .done (res, n') →
          ∀ i ∈ res, i = -1 ∨ ∃ w, Op.insert w i ∈ scenarioOps ∧ p <+: w) :=
  ⟨by decide, prefix_membership scenarioOps (by decide)⟩

/-- C6: the concrete scenario.  For every order of the calls of the scenario
that follows the discipline (each word inserted before it is incremented), the
calls return normally and, ranking from the last entry of the search path:
`getKMax 2` at "ca" is `[1, 0]`, `getKMax 3` at "c" is `[1, 0, -1]`,
`getKMax 1` at "do" is `[2]`, and the last entry of the path of "z" is null. -/
theorem concrete_scenario (ops : List Op) (hperm : ops.Perm scenarioOps)
    (hdisc : Disciplined ops) :
    ∃ t, Trie.run Trie.new ops = .done t ∧
      (∃ n, Trie.lastOfSearch t "ca".toList = .done (some n) ∧
        Trie.getKMax n 2 = .done ([1, 0], n)) ∧
      (∃ n, Trie.lastOfSearch t "c".toList = .done (some n) ∧
        Trie.getKMax n 3 = .done ([1, 0, -1], n)) ∧
      (∃ n, Trie.lastOfSearch t "do".toList = .done (some n) ∧
        Trie.getKMax n 1 = .done ([2], n)) ∧
      Trie.lastOfSearch t "z".toList = .done none := by
  obtain ⟨t, hrun, hinv⟩ := run_inv ops hdisc
  have hheap : Trie.AllHeap t :=
    Trie.run_allHeap ops Trie.new Trie.allHeap_new t (by rw [hrun]; rfl)
  have hnode : ∀ p : List Char, (∃ r ∈ registered scenarioOps, p <+: r.1) →
      ∃ n, Trie.walk t p = some n ∧ n.pq.Perm (entries scenarioOps p) ∧ PQ.IsHeap n.pq := by
    intro p hex
    obtain ⟨r, hr, hrp⟩ := hex
    have hr' : r ∈ registered ops := (registered_perm ops scenarioOps hperm).symm.subset hr
    have hsome := (hinv.exists_iff p).mpr (Or.inr ⟨r, hr', hrp⟩)
    obtain ⟨pq, hpq⟩ := Option.isSome_iff_exists.mp hsome
    unfold Trie.pqAt at hpq
    obtain ⟨n, hn, rfl⟩ := Option.map_eq_some'.mp hpq
    have hp := hinv.perm p
    simp only [Trie.pqAt, hn, Option.map_some', Option.getD_some] at hp
    exact ⟨n, hn, hp.trans (entries_perm ops scenarioOps p hperm), hheap p n hn⟩
  have hcar : ∀ pq : PQ, pq.Perm [(0, 3), (1, 5)] → PQ.IsHeap pq → pq = [(1, 5), (0, 3)] := by
    intro pq h1 h2
    rcases perm_pair h1 with h | h
    · rw [h] at h2
      exact absurd h2 (by decide)
    · exact h
  refine ⟨t, hrun, ?_, ?_, ?_, ?_⟩
  · obtain ⟨n, hn, hp, hh⟩ := hnode "ca".toList ⟨("cat".toList, 0), by decide, by decide⟩
    refine ⟨n, by rw [Trie.lastOfSearch_eq_walk t _ (by decide), hn], ?_⟩
    have he : entries scenarioOps "ca".toList = [(0, 3), (1, 5)] := by decide
    rw [he] at hp
    cases n with
    | node pq ch =>
      have := hcar pq hp hh
      subst this
      simp only [Trie.getKMax]
      rfl
  · obtain ⟨n, hn, hp, hh⟩ := hnode "c".toList ⟨("cat".toList, 0), by decide, by decide⟩
    refine ⟨n, by rw [Trie.lastOfSearch_eq_walk t _ (by decide), hn], ?_⟩
    have he : entries scenarioOps "c".toList = [(0, 3), (1, 5)] := by decide
    rw [he] at hp
    cases n with
    | node pq ch =>
      have := hcar pq hp hh
      subst this
      simp only [Trie.getKMax]
      rfl
  · obtain ⟨n, hn, hp, _⟩ := hnode "do".toList ⟨("dog".toList, 2), by decide, by decide⟩
    refine ⟨n, by rw [Trie.lastOfSearch_eq_walk t _ (by decide), hn], ?_⟩
    have he : entries scenarioOps "do".toList = [(2, 1)] := by decide
    rw [he] at hp
    cases n with
    | node pq ch =>
      have : pq = [(2, 1)] := List.perm_singleton.mp hp
      subst this
      simp only [Trie.getKMax]
      rfl
  · rw [Trie.lastOfSearch_eq_walk t _ (by decide)]
    have hnone : ¬ (Trie.pqAt t "z".toList).isSome := by
      rw [hinv.exists_iff]
      rintro (h | ⟨r, hr, hrp⟩)
      · exact absurd h (by decide)
      · have hr' : r ∈ registered scenarioOps :=
          (registered_perm ops scenarioOps hperm).subset hr
        have hall : ∀ r ∈ registered scenarioOps, ¬ "z".toList <+: r.1 := by decide
        exact hall r hr' hrp
    unfold Trie.pqAt at hnone
    cases hw : Trie.walk t "z".toList with
    | none => rfl
    | some n => rw [hw] at hnone; exact absurd rfl hnone

/-- Witness for `concrete_scenario`. -/
theorem concrete_scenario_witness :
    scenarioOps.Perm scenarioOps ∧ Disciplined scenarioOps ∧
    ∃ t, Trie.run Trie.new scenarioOps = .done t ∧
      (∃ n, Trie.lastOfSearch t "ca".toList = .done (some n) ∧
        Trie.getKMax n 2 = .done ([1, 0], n)) ∧
      (∃ n, Trie.lastOfSearch t "c".toList = .done (some n) ∧
        Trie.getKMax n 3 = .done ([1, 0, -1], n)) ∧
      (∃ n, Trie.lastOfSearch t "do".toList = .done (some n) ∧
        Trie.getKMax n 1 = .done ([2], n)) ∧
      Trie.lastOfSearch t "z".toList = .done none :=
  ⟨List.Perm.refl _, by decide,
    concrete_scenario scenarioOps (List.Perm.refl _) (by decide)⟩

/-- C7: the heap invariant.  The max-heap property holds for the empty `PQ`
and is preserved by `insert` (any id), by `changePriority` (any id, whether it
returns or throws), by `deleteMax` on a non-empty tracker and by `getKMax`
(any `k`); hence it holds at the tracker of every node of the trie after any
sequence of `Trie::insert` / `Trie::changePriority` calls, also when the
caller catches exceptions and goes on. -/
theorem heap_invariant :
    PQ.IsHeap [] ∧
    (∀ (pq : PQ) (id : Int), PQ.IsHeap pq → PQ.IsHeap (PQ.insert pq id)) ∧
    (∀ (pq : PQ) (id : Int), PQ.IsHeap pq →
      ∃ after, (PQ.changePriority pq id = .done after ∨
          PQ.changePriority pq id = .thrown "ID not present in PQ." after) ∧
        PQ.IsHeap after) ∧
    (∀ (pq : PQ), PQ.IsHeap pq → pq ≠ [] →
      ∃ e after, PQ.deleteMax pq = .done (e, after) ∧ PQ.IsHeap after) ∧
    (∀ (pq : PQ) (k : Int), PQ.IsHeap pq →
      ∃ res after, PQ.getKMax pq k = .done (res, after) ∧ PQ.IsHeap after) ∧
    (∀ (ops : List Op) (t : Trie), Trie.runCatching Trie.new ops = some t →
      ∀ p n, Trie.walk t p = some n → PQ.IsHeap n.pq) := by
  refine ⟨PQ.isHeap_nil, PQ.insert_heap, ?_, ?_, ?_, ?_⟩
  · intro pq id h
    have hh := PQ.changePriority_heap pq id h
    by_cases hex : ∃ e ∈ pq, e.1 = id
    · obtain ⟨j, _, _, _, hdone⟩ := PQ.changePriority_present pq id hex
      exact ⟨_, Or.inl hdone, hh _ (by rw [hdone]; rfl)⟩
    · have hthrow := PQ.changePriority_absent pq id (fun e he hid => hex ⟨e, he, hid⟩)
      exact ⟨_, Or.inr hthrow, hh _ (by rw [hthrow]; rfl)⟩
  · intro pq h hne
    obtain ⟨rest, h1, _, _, h4⟩ := PQ.deleteMax_spec pq hne
    exact ⟨_, rest, h1, (h4 h).1⟩
  · intro pq k h
    obtain ⟨es, rest, h1, _⟩ := PQ.getKMax_spec pq k
    exact ⟨_, pq, h1, h⟩
  · intro ops t ht
    exact Trie.runCatching_allHeap ops Trie.new Trie.allHeap_new t ht

/-- Witness for `heap_invariant`. -/
theorem heap_invariant_witness :
    PQ.IsHeap [(7, 5), (6, 3), (5, 4)] ∧ PQ.IsHeap (PQ.insert [(7, 5), (6, 3), (5, 4)] 9) ∧
    ∃ after, (PQ.changePriority [(7, 5), (6, 3), (5, 4)] 6 = .done after ∨
        PQ.changePriority [(7, 5), (6, 3), (5, 4)] 6 = .thrown "ID not present in PQ." after) ∧
      PQ.IsHeap after :=
  ⟨by decide, heap_invariant.2.1 [(7, 5), (6, 3), (5, 4)] 9 (by decide),
    heap_invariant.2.2.1 [(7, 5), (6, 3), (5, 4)] 6 (by decide)⟩

/-! ## Further theorems on the priority queue -/

/-- C11, as stated, fails on the empty tracker: `deleteMax` reports no error
there; the read of `pq[0]` is out of range and the behaviour is undefined. -/
theorem deleteMax_empty_no_error :
    PQ.deleteMax [] = .undefined ∧ PQ.cell? [] 0 = none ∧
      ¬ ∃ what s, PQ.deleteMax [] = .thrown what s := by
  refine ⟨rfl, rfl, ?_⟩
  rintro ⟨what, s, h⟩
  cases h

/-- C11, amended: `deleteMax` has no emptiness check and no error result.  Its
behaviour is undefined exactly on the tracker with zero entries, it never
throws, and it returns normally on every non-empty tracker; the caller has to
guard the call, as `getKMax` does with `empty()`, which therefore returns
normally on every tracker, the empty one included. -/
theorem deleteMax_unguarded (pq : PQ) :
    (PQ.deleteMax pq = .undefined ↔ pq = []) ∧
    (∀ what s, PQ.deleteMax pq ≠ .thrown what s) ∧
    (pq ≠ [] → ∃ e rest, PQ.deleteMax pq = .done (e, rest)) ∧
    PQ.deleteMaxChecked pq = PQ.deleteMax pq ∧
    (∀ k : Int, ∃ res, PQ.getKMax pq k = .done (res, pq)) := by
  refine ⟨?_, ?_, ?_, PQ.deleteMaxChecked_eq pq, ?_⟩
  · constructor
    · intro h
      by_contra hne
      obtain ⟨rest, h1, _⟩ := PQ.deleteMax_spec pq hne
      rw [h1] at h
      cases h
    · rintro rfl
      rfl
  · intro what s h
    by_cases hne : pq = []
    · subst hne
      cases h
    · obtain ⟨rest, h1, _⟩ := PQ.deleteMax_spec pq hne
      rw [h1] at h
      cases h
  · intro hne
    obtain ⟨rest, h1, _⟩ := PQ.deleteMax_spec pq hne
    exact ⟨_, rest, h1⟩
  · intro k
    obtain ⟨es, rest, h1, _⟩ := PQ.getKMax_spec pq k
    exact ⟨_, h1⟩

/-- C12: `insert id` yields a tracker with exactly one more entry, whose
entries are the previous ones plus the single pair `(id, 1)`; every entry
present before is still there with its id and count. -/
theorem insert_adds_one (pq : PQ) (id : Int) :
    PQ.size (PQ.insert pq id) = PQ.size pq + 1 ∧
    ((PQ.insert pq id : PQ) : Multiset Entry) = (id, 1) ::ₘ (pq : Multiset Entry) ∧
    (∀ e : Entry, Multiset.count e ((PQ.insert pq id : PQ) : Multiset Entry) =
      Multiset.count e (pq : Multiset Entry) + (if e = (id, 1) then 1 else 0)) ∧
    PQ.insertChecked pq id = .done (PQ.insert pq id) := by
  have hm : ((PQ.insert pq id : PQ) : Multiset Entry) = (id, 1) ::ₘ (pq : Multiset Entry) := by
    rw [Multiset.cons_coe]
    exact Quotient.sound (PQ.insert_perm pq id)
  refine ⟨PQ.length_insert pq id, hm, ?_, PQ.insertChecked_eq pq id⟩
  intro e
  rw [hm, Multiset.count_cons]

/-- C17, as stated, fails at the greatest `int`: on the heap
`[(0, 2147483647), (1, 7)]` the increment of the entry of id 0 wraps to
`-2147483648`, `fix_up(0)` moves nothing and `fix_down(0)` swaps the entry
with its child, so `changePriority` and the variant with `fix_up` alone
produce different arrays. -/
theorem changePriority_fix_down_moves :
    PQ.IsHeap [(0, 2147483647), (1, 7)] ∧
    PQ.changePriority [(0, 2147483647), (1, 7)] 0 = .done [(1, 7), (0, -2147483648)] ∧
    PQ.changePriorityUp [(0, 2147483647), (1, 7)] 0 = .done [(0, -2147483648), (1, 7)] ∧
    PQ.changePriority [(0, 2147483647), (1, 7)] 0 ≠
      PQ.changePriorityUp [(0, 2147483647), (1, 7)] 0 ∧
    PQ.largest (PQ.fix_up (PQ.bump [(0, 2147483647), (1, 7)] 0) 0) 0 = 1 := by
  refine ⟨by decide, by decide, by decide, by decide, by decide⟩

/-- C17, amended: on a tracker with the max-heap property in which the count
of every entry of `id` is an `int` below `INT_MAX`, `changePriority` computes
what the variant with `fix_up(i)` alone computes; and at every index `i` whose
count is an `int` below `INT_MAX`, after the count is increased and
`fix_up(i)` has run, the array is a heap, `fix_down(i)` finds `largest = i`
and leaves the array as it is. -/
theorem changePriority_fix_up_only (pq : PQ) (id : Int) (h : PQ.IsHeap pq)
    (hr : ∀ i, i < PQ.size pq → PQ.first pq i = id →
      INT_MIN ≤ PQ.second pq i ∧ PQ.second pq i < INT_MAX) :
    PQ.changePriority pq id = PQ.changePriorityUp pq id ∧
    ∀ i, i < PQ.size pq → INT_MIN ≤ PQ.second pq i → PQ.second pq i < INT_MAX →
      PQ.largest (PQ.fix_up (PQ.bump pq i) i) i = i ∧
      PQ.fix_down (PQ.fix_up (PQ.bump pq i) i) i = PQ.fix_up (PQ.bump pq i) i := by
  refine ⟨PQ.changePriorityLoop_eq_up id pq h hr (PQ.size pq) 0 (by omega), ?_⟩
  intro i hi hlo hhi
  have hge : PQ.second pq i ≤ wrapInt (PQ.second pq i + 1) := by
    rw [PQ.wrapInt_incr _ hlo hhi]; omega
  have hh : PQ.IsHeap (PQ.fix_up (PQ.bump pq i) i) :=
    PQ.fix_up_heap _ _ (by simp only [PQ.size, PQ.length_bump]; exact hi)
      (PQ.bump_upInv pq i hi h hge)
  exact ⟨PQ.largest_of_heap _ i hh, PQ.fix_down_of_heap _ i hh⟩

/-- Witness for `changePriority_fix_up_only`. -/
theorem changePriority_fix_up_only_witness :
    PQ.IsHeap [(7, 5), (6, 3), (5, 4)] ∧
    (∀ i, i < PQ.size [(7, 5), (6, 3), (5, 4)] → PQ.first [(7, 5), (6, 3), (5, 4)] i = 6 →
      INT_MIN ≤ PQ.second [(7, 5), (6, 3), (5, 4)] i ∧
        PQ.second [(7, 5), (6, 3), (5, 4)] i < INT_MAX) ∧
    PQ.changePriority [(7, 5), (6, 3), (5, 4)] 6 = PQ.changePriorityUp [(7, 5), (6, 3), (5, 4)] 6 ∧
    ∀ i, i < PQ.size [(7, 5), (6, 3), (5, 4)] →
      INT_MIN ≤ PQ.second [(7, 5), (6, 3), (5, 4)] i →
      PQ.second [(7, 5), (6, 3), (5, 4)] i < INT_MAX →
      PQ.largest (PQ.fix_up (PQ.bump [(7, 5), (6, 3), (5, 4)] i) i) i = i ∧
      PQ.fix_down (PQ.fix_up (PQ.bump [(7, 5), (6, 3), (5, 4)] i) i) i =
        PQ.fix_up (PQ.bump [(7, 5), (6, 3), (5, 4)] i) i :=
  ⟨by decide, by decide,
    changePriority_fix_up_only [(7, 5), (6, 3), (5, 4)] 6 (by decide) (by decide)⟩

/-- C13: for a lowercase key, `search` called with an empty `out` returns
normally with exactly `|key| + 1` entries; entry 0 is the root; entry `j` is
the node reached by walking the first `j` characters of the key, null when a
child on that walk is missing; once an entry is null every later entry is
null.  The function only reads the trie: its result is a function of it. -/
theorem search_path_entries (t : Trie) (key : List Char) (h : Lowercase key) :
    ∃ out, Trie.search t key [] = .done out ∧
      out.length = key.length + 1 ∧
      out[0]? = some (some t) ∧
      (∀ j, j ≤ key.length → out[j]? = some (Trie.walk t (key.take j))) ∧
      (∀ j k, j ≤ k → k ≤ key.length → out[j]? = some none → out[k]? = some none) := by
  obtain ⟨out, h1, h2, h3⟩ := Trie.search_path t key h
  refine ⟨out, h1, h2, ?_, h3, ?_⟩
  · rw [h3 0 (Nat.zero_le _)]
    simp [Trie.walk_nil]
  · intro j k hjk hk hj
    rw [h3 j (by omega)] at hj
    rw [h3 k hk, Trie.walk_none_of_take t key j k hjk (Option.some.inj hj)]

/-- Witness for `search_path_entries`. -/
theorem search_path_entries_witness :
    Lowercase "ca".toList ∧
    ∃ out, Trie.search Trie.new "ca".toList [] = .done out ∧
      out.length = "ca".toList.length + 1 ∧
      out[0]? = some (some Trie.new) ∧
      (∀ j, j ≤ "ca".toList.length →
        out[j]? = some (Trie.walk Trie.new ("ca".toList.take j))) ∧
      (∀ j k, j ≤ k → k ≤ "ca".toList.length → out[j]? = some none → out[k]? = some none) :=
  ⟨by decide, search_path_entries Trie.new "ca".toList (by decide)⟩

/-- C14, as stated, fails before the first insert: the root of a fresh trie is
reached by walking the empty string, which is a prefix of no inserted word. -/
theorem root_without_words :
    Trie.runCatching Trie.new [] = some Trie.new ∧ Lowercase [] ∧
    (Trie.walk Trie.new []).isSome ∧
    Trie.lastOfSearch Trie.new [] = .done (some Trie.new) ∧
    ¬ ∃ w id, Op.insert w id ∈ ([] : List Op) ∧ [] <+: w := by
  refine ⟨rfl, by decide, rfl, rfl, ?_⟩
  rintro ⟨w, id, h, _⟩
  cases h

/-- C14, amended: after any sequence of inserts of lowercase words, with
increments of words inserted before (whatever the id, exceptions caught), the
calls have defined behaviour and, for every lowercase `p`, a node is reached
by walking `p` exactly when `p` is empty (the root) or `p` is a prefix of an
inserted word; the last entry of the search path of `p` is that node, so it
is null for a non-empty `p` that starts no inserted word. -/
theorem node_exists_iff (ops : List Op) (h : WellUsed ops) :
    ∃ t, Trie.runCatching Trie.new ops = some t ∧
      ∀ p, Lowercase p →
        ((Trie.walk t p).isSome ↔ (p = [] ∨ ∃ w id, Op.insert w id ∈ ops ∧ p <+: w)) ∧
        Trie.lastOfSearch t p = .done (Trie.walk t p) ∧
        (p ≠ [] → (∀ w id, Op.insert w id ∈ ops → ¬ p <+: w) →
          Trie.lastOfSearch t p = .done none) := by
  obtain ⟨t, hrun, hinv⟩ := runCatching_exists ops h
  refine ⟨t, hrun, ?_⟩
  intro p hp
  have hiff : (Trie.walk t p).isSome ↔ (p = [] ∨ ∃ w id, Op.insert w id ∈ ops ∧ p <+: w) := by
    rw [hinv p]
    constructor
    · rintro (h | ⟨r, hr, hrp⟩)
      · exact Or.inl h
      · exact Or.inr ⟨r.1, r.2, (mem_registered ops r).mp hr, hrp⟩
    · rintro (h | ⟨w, id, hw, hwp⟩)
      · exact Or.inl h
      · exact Or.inr ⟨(w, id), (mem_registered ops (w, id)).mpr hw, hwp⟩
  refine ⟨hiff, Trie.lastOfSearch_eq_walk t p hp, ?_⟩
  intro hne hnone
  rw [Trie.lastOfSearch_eq_walk t p hp]
  cases hw : Trie.walk t p with
  | none => rfl
  | some n =>
    have := hiff.mp (by rw [hw]; rfl)
    rcases this with h | ⟨w, id, hw', hwp⟩
    · exact absurd h hne
    · exact absurd hwp (hnone w id hw')

/-- Witness for `node_exists_iff`. -/
theorem node_exists_iff_witness :
    WellUsed scenarioOps ∧
    ∃ t, Trie.runCatching Trie.new scenarioOps = some t ∧
      ∀ p, Lowercase p →
        ((Trie.walk t p).isSome ↔
          (p = [] ∨ ∃ w id, Op.insert w id ∈ scenarioOps ∧ p <+: w)) ∧
        Trie.lastOfSearch t p = .done (Trie.walk t p) ∧
        (p ≠ [] → (∀ w id, Op.insert w id ∈ scenarioOps → ¬ p <+: w) →
          Trie.lastOfSearch t p = .done none) :=
  ⟨by decide, node_exists_iff scenarioOps (by decide)⟩

/-- C15 at the failing input: after `insert("ab", 0)` on a fresh trie the
root tracker holds id 0 and no node is reached by walking "ac"; the call
`changePriority("ac", 0)` then dereferences the null child of the node of
"a": its behaviour is undefined, it does not throw `std::invalid_argument`. -/
theorem changePriority_null_child :
    (Trie.run Trie.new [Op.insert "ab".toList 0]).state?.map Trie.pq = some [(0, 1)] ∧
    (Trie.run Trie.new [Op.insert "ab".toList 0]).state?.bind
      (fun t => Trie.pqAt t "ac".toList) = none ∧
    Trie.run Trie.new [Op.insert "ab".toList 0, Op.changePriority "ac".toList 0] =
      .undefined := by
  refine ⟨by decide, by decide, rfl⟩

/-- C16, as stated, fails once more than `INT_MAX + 1` words are registered:
with the 2147483649 distinct words "", "a", "aa", ... registered in order from
an empty registry with `id_counter = 0`, the registration of index 2147483648
returns `-2147483648`, not `2147483648`, and `checkId` of that word returns
`-2147483648` afterwards. -/
theorem id_overflow :
    overflowWords.Nodup ∧ overflowWords.length = 2147483649 ∧
    (wordCompletion.registerAll ⟨Trie.new, [], 0⟩ overflowWords).1[2147483648]? =
      some (-2147483648) ∧
    (wordCompletion.registerAll ⟨Trie.new, [], 0⟩ overflowWords).1[2147483648]? ≠
      some (Int.ofNat 2147483648) ∧
    overflowWords[2147483648]? = some (List.replicate 2147483648 'a') ∧
    (wordCompletion.registerAll ⟨Trie.new, [], 0⟩ overflowWords).2.checkId
      (List.replicate 2147483648 'a') = -2147483648 := by
  have hlen : overflowWords.length = 2147483649 := by
    unfold overflowWords
    rw [List.length_map, List.length_range]
  have hw : wrapInt (Int.ofNat 2147483648) = -2147483648 := by decide
  have hi : 2147483648 < overflowWords.length := by rw [hlen]; omega
  have hget : overflowWords[2147483648] = List.replicate 2147483648 'a' := by
    unfold overflowWords
    rw [List.getElem_map, List.getElem_range]
  obtain ⟨h1, _, h3, _⟩ := registerAll_spec Trie.new overflowWords overflowWords_nodup
  have hid : (wordCompletion.registerAll ⟨Trie.new, [], 0⟩ overflowWords).1[2147483648]? =
      some (-2147483648) := by
    rw [h1, List.getElem?_map, List.getElem?_range (by rw [hlen]; omega), Option.map_some', hw]
  refine ⟨overflowWords_nodup, hlen, hid, ?_, ?_, ?_⟩
  · rw [hid]
    decide
  · rw [List.getElem?_eq_getElem hi, hget]
  · have := h3 2147483648 hi
    rw [hget] at this
    rw [checkId_eq, this, Option.getD_some, hw]

/-- C16, amended: id assignment for up to `INT_MAX + 1` words.  Starting from
an empty registry with `id_counter = 0`, registering the distinct words `ws`,
at most 2147483648 of them, in order returns the ids `0, 1, ..., n - 1`; after
the first `n` registrations `checkId` returns `i` for the word of index
`i < n`, however many words were registered after it, and `-1` for every word
not registered so far (so each word was unknown when it was registered). -/
theorem id_assignment (D : Trie) (ws : List (List Char)) (hnd : ws.Nodup)
    (hlen : ws.length ≤ 2147483648) :
    (wordCompletion.registerAll ⟨D, [], 0⟩ ws).1 = (List.range ws.length).map Int.ofNat ∧
    ∀ n, n ≤ ws.length →
      (∀ i (hi : i < ws.length), i < n →
        (wordCompletion.registerAll ⟨D, [], 0⟩ (ws.take n)).2.checkId ws[i] = (i : Int)) ∧
      (∀ w, w ∉ ws.take n →
        (wordCompletion.registerAll ⟨D, [], 0⟩ (ws.take n)).2.checkId w = -1) := by
  constructor
  · rw [(registerAll_spec D ws hnd).1]
    apply List.map_congr_left
    intro i hi
    rw [List.mem_range] at hi
    rw [wrapInt_ofNat i (by omega)]
    rfl
  intro n hn
  have hnd' : (ws.take n).Nodup := hnd.sublist (List.take_sublist n ws)
  obtain ⟨_, _, h3, h4⟩ := registerAll_spec D (ws.take n) hnd'
  constructor
  · intro i hi hin
    have hlen' : i < (ws.take n).length := by
      rw [List.length_take]; omega
    have := h3 i hlen'
    rw [List.getElem_take] at this
    rw [checkId_eq, this, Option.getD_some, wrapInt_ofNat i (by omega)]
  · intro w hw
    rw [checkId_eq, h4 w hw]
    rfl

/-- Witness for `id_assignment`. -/
theorem id_assignment_witness :
    ["cat".toList, "car".toList, "dog".toList].Nodup ∧
    ["cat".toList, "car".toList, "dog".toList].length ≤ 2147483648 ∧
    (wordCompletion.registerAll ⟨Trie.new, [], 0⟩
        ["cat".toList, "car".toList, "dog".toList]).1 =
      (List.range ["cat".toList, "car".toList, "dog".toList].length).map Int.ofNat ∧
    ∀ n, n ≤ ["cat".toList, "car".toList, "dog".toList].length →
      (∀ i (hi : i < ["cat".toList, "car".toList, "dog".toList].length), i < n →
        (wordCompletion.registerAll ⟨Trie.new, [], 0⟩
          (["cat".toList, "car".toList, "dog".toList].take n)).2.checkId
            ["cat".toList, "car".toList, "dog".toList][i] = (i : Int)) ∧
      (∀ w, w ∉ ["cat".toList, "car".toList, "dog".toList].take n →
        (wordCompletion.registerAll ⟨Trie.new, [], 0⟩
          (["cat".toList, "car".toList, "dog".toList].take n)).2.checkId w = -1) :=
  ⟨by decide, by decide,
    id_assignment Trie.new ["cat".toList, "car".toList, "dog".toList] (by decide) (by decide)⟩

/-- C18: `getIdChild c = code(c) - 97` lies in `[0, 26)` exactly for the
letters `a` to `z`, which it maps one-to-one onto the slots `0..25`; for a
lowercase key every `children[...]` subscript is a slot of the array, so
`insert` and `search` return normally, while any other character (uppercase,
digit, space) gives no slot and an `insert` stepping on it is undefined. -/
theorem getIdChild_in_bounds :
    (∀ c : Char, (0 ≤ Trie.getIdChild c ∧ Trie.getIdChild c < (CHAR_SIZE : Int)) ↔
      (97 ≤ c.toNat ∧ c.toNat ≤ 122)) ∧
    (∀ c : Char, (Trie.slot (Trie.getIdChild c)).isSome ↔ (97 ≤ c.toNat ∧ c.toNat ≤ 122)) ∧
    (∀ c d : Char, 97 ≤ c.toNat ∧ c.toNat ≤ 122 → Trie.getIdChild c = Trie.getIdChild d →
      c = d) ∧
    (∀ i : Fin CHAR_SIZE, ∃ c : Char, (97 ≤ c.toNat ∧ c.toNat ≤ 122) ∧
      Trie.getIdChild c = (i.val : Int)) ∧
    (Trie.getIdChild 'a' = 0 ∧ Trie.getIdChild 'z' = 25) ∧
    (∀ key : List Char, Lowercase key → ∀ c ∈ key, (Trie.slot (Trie.getIdChild c)).isSome) ∧
    (∀ (key : List Char) (t : Trie) (id : Int), Lowercase key →
      (∃ t', Trie.insert t key id = .done t') ∧ (∃ out, Trie.search t key [] = .done out)) ∧
    (Trie.slot (Trie.getIdChild 'A') = none ∧ Trie.slot (Trie.getIdChild '0') = none ∧
      Trie.slot (Trie.getIdChild ' ') = none) ∧
    (∀ (c : Char) (cs : List Char) (t : Trie) (id : Int), ¬ (97 ≤ c.toNat ∧ c.toNat ≤ 122) →
      Trie.insert t (c :: cs) id = .undefined) := by
  have hslot : ∀ c : Char, (Trie.slot (Trie.getIdChild c)).isSome ↔
      (97 ≤ c.toNat ∧ c.toNat ≤ 122) := by
    intro c
    constructor
    · intro hs
      obtain ⟨i, hi⟩ := Option.isSome_iff_exists.mp hs
      have := Trie.slot_eq_some hi
      have hi2 := i.isLt
      unfold Trie.getIdChild at this
      unfold CHAR_SIZE at hi2
      omega
    · intro hc
      obtain ⟨i, hi⟩ := Trie.slot_of_lower hc
      rw [hi]; rfl
  refine ⟨?_, hslot, ?_, ?_, by decide, ?_, ?_, by decide, ?_⟩
  · intro c
    unfold Trie.getIdChild CHAR_SIZE
    constructor <;> intro h <;> constructor <;> omega
  · intro c d hc hcd
    unfold Trie.getIdChild at hcd
    apply Char.ext
    apply UInt32.ext
    have : c.toNat = d.toNat := by omega
    exact this
  · intro i
    obtain ⟨c, hc⟩ := Trie.slot_surj i
    exact ⟨c, (hslot c).mp (by rw [hc]; rfl), Trie.slot_eq_some hc⟩
  · intro key hkey c hc
    exact (hslot c).mpr (hkey c hc)
  · intro key t id hkey
    obtain ⟨t', ht', _⟩ := Trie.insert_spec key t id hkey
    obtain ⟨out, hout, _⟩ := Trie.search_path t key hkey
    exact ⟨⟨t', ht'⟩, ⟨out, hout⟩⟩
  · intro c cs t id hc
    have hnone : Trie.slot (Trie.getIdChild c) = none := by
      cases hs : Trie.slot (Trie.getIdChild c) with
      | none => rfl
      | some i => exact absurd ((hslot c).mp (by rw [hs]; rfl)) hc
    cases t with
    | node pq ch => simp only [Trie.insert, hnone]

/-- C20: the frame of the trie mutations.  For a lowercase key, `insert`
returns normally; it leaves every node off the path of the key as it was
(tracker and children), gives the tracker of every node on the path the new
id, removes no node, and the nodes it creates are non-empty prefixes of the
key, hence at most `|key|`.  A `changePriority` that returns normally leaves
every node off the path as it was, creates and removes no node, and leaves
every child slot of every node null or non-null as it was. -/
theorem mutations_frame (t : Trie) (key : List Char) (id : Int) (h : Lowercase key) :
    (∃ t', Trie.insert t key id = .done t' ∧
      (∀ p, ¬ p <+: key → Trie.walk t' p = Trie.walk t p) ∧
      (∀ p, p <+: key →
        Trie.pqAt t' p = some (PQ.insert ((Trie.pqAt t p).getD []) id)) ∧
      (∀ p, (Trie.walk t p).isSome → (Trie.walk t' p).isSome) ∧
      (∀ p, Trie.walk t p = none → (Trie.walk t' p).isSome → p <+: key ∧ p ≠ []) ∧
      (∀ ps : List (List Char), ps.Nodup →
        (∀ p ∈ ps, Trie.walk t p = none ∧ (Trie.walk t' p).isSome) →
        ps.length ≤ key.length)) ∧
    (∀ t', Trie.changePriority t key id = .done t' →
      (∀ p, ¬ p <+: key → Trie.walk t' p = Trie.walk t p) ∧
      (∀ p, (Trie.walk t' p).isSome = (Trie.walk t p).isSome) ∧
      (∀ p n n', Trie.walk t p = some n → Trie.walk t' p = some n' →
        ∀ i, (n'.children i).isSome = (n.children i).isSome)) := by
  constructor
  · obtain ⟨t', hins, hpq⟩ := Trie.insert_spec key t id h
    have hsome : ∀ p, (Trie.walk t p).isSome → (Trie.walk t' p).isSome := by
      intro p hp
      rw [← Trie.walk_isSome_iff_pqAt, hpq p]
      by_cases hpk : p <+: key
      · rw [if_pos hpk]; rfl
      · rw [if_neg hpk, Trie.walk_isSome_iff_pqAt]; exact hp
    have hnew : ∀ p, Trie.walk t p = none → (Trie.walk t' p).isSome → p <+: key ∧ p ≠ [] := by
      intro p hp hp'
      constructor
      · by_contra hpk
        rw [Trie.insert_frame key t t' id hins p hpk, hp] at hp'
        cases hp'
      · rintro rfl
        rw [Trie.walk_nil] at hp
        cases hp
    refine ⟨t', hins, Trie.insert_frame key t t' id hins, ?_, hsome, hnew, ?_⟩
    · intro p hp
      rw [hpq p, if_pos hp]
    · intro ps hnd hps
      exact prefixes_length_le key ps hnd (fun p hp => hnew p (hps p hp).1 (hps p hp).2)
  · intro t' hcp
    obtain ⟨h1, h2⟩ := Trie.changePriority_frame key t id t' (by rw [hcp]; rfl)
    refine ⟨h1, h2, ?_⟩
    intro p n n' hn hn' i
    obtain ⟨c, hc⟩ := Trie.slot_surj i
    have e1 := h2 (p ++ [c])
    rw [Trie.walk_append, Trie.walk_append, hn, hn', Option.some_bind, Option.some_bind,
      ← Trie.children_eq_walk n' c i hc, ← Trie.children_eq_walk n c i hc] at e1
    exact e1

/-- Witness for `mutations_frame`. -/
theorem mutations_frame_witness :
    Lowercase "cat".toList ∧
    ∃ t', Trie.insert Trie.new "cat".toList 0 = .done t' ∧
      ∀ p, ¬ p <+: "cat".toList → Trie.walk t' p = Trie.walk Trie.new p :=
  ⟨by decide,
    (mutations_frame Trie.new "cat".toList 0 (by decide)).1.imp
      (fun _ h => ⟨h.1, h.2.1⟩)⟩

end WordCompletion
